import Mathlib

/-!
Verification of the VMF parser/serializer library (`vmf_parser_nom`).

The embedding models Rust `&str` slices as `List Char`.  The `nom` parser
combinators used by the crate are reproduced at the level of their
documented semantics: a parser takes the remaining input and returns
either the pair (remaining input, value) or an error value built through
the error-capability operations (`ParseError` + `ContextError`).  The
`nom::Err::Incomplete` variant never arises for the `complete` combinators
used by this crate, so results are a plain `Except`.

Recursive parsers use a fuel parameter for termination; `parse` supplies
fuel `input.length + 2`, which is more than the recursion can consume
because every loop iteration and every nested block consumes input.
-/

set_option maxHeartbeats 1000000

/-- The brace characters, written via their code points. -/
def lbraceC : Char := Char.ofNat 123

/-- The closing brace character. -/
def rbraceC : Char := Char.ofNat 125

/-- Subset of `nom::error::ErrorKind` reachable from this crate's parsers. -/
inductive NomKind where
  | chr
  | tg
  | takeUntil
  | alphaNumeric
  | multiSpace
  | many1
  | many0Count
  | many1Count
  | altK
  | failK
deriving DecidableEq

/-- Error capability: the operations of `nom::error::ParseError` and
`nom::error::ContextError` that the crate's parsers are generic over. -/
structure ErrCap (E : Type) where
  fromErrorKind : List Char → NomKind → E
  appendKind : List Char → NomKind → E → E
  orE : E → E → E
  fromChar : List Char → Char → E
  addContext : List Char → String → E → E

/-- Result of a `nom` parser: remaining input and value, or an error. -/
abbrev NRes (E : Type) (α : Type) : Type := Except E (List Char × α)

/-- A key/value pair (`Property` in `ast/mod.rs`). -/
structure Property (K V : Type) where
  key : K
  value : V
deriving DecidableEq

/-- A named block of properties and sub-blocks (`Block` in `ast/mod.rs`). -/
inductive Block (S : Type) where
  | mk (name : S) (props : List (Property S S)) (blocks : List (Block S))

/-- Name of a block. -/
def Block.name : Block S → S
  | .mk n _ _ => n

/-- Properties of a block. -/
def Block.props : Block S → List (Property S S)
  | .mk _ p _ => p

/-- Sub-blocks of a block. -/
def Block.blocks : Block S → List (Block S)
  | .mk _ _ b => b

/-- A whole VMF document: a root block wrapper (`Vmf` in `ast/mod.rs`). -/
structure Vmf (S : Type) where
  inner : Block S

/-- Construction of a document from top-level blocks (`Vmf::new`): a root
block named `"root"` with no properties.  The `ofStr` argument models the
`S: From<&str>` bound. -/
def Vmf.new (ofStr : List Char → S) (blocks : List (Block S)) : Vmf S :=
  ⟨Block.mk (ofStr "root".data) [] blocks⟩

/-! ## nom primitive parsers -/

/-- Whitespace recognized by `multispace0`/`multispace1`. -/
def isWs (c : Char) : Bool :=
  c = ' ' || c = '\t' || c = '\r' || c = '\n'

/-- ASCII alphanumeric, as recognized by `nom`'s `alphanumeric1`. -/
def isAlnum (c : Char) : Bool :=
  ('0' ≤ c && c ≤ '9') || ('a' ≤ c && c ≤ 'z') || ('A' ≤ c && c ≤ 'Z')

/-- Identifier characters: ASCII alphanumeric or underscore. -/
def isIdentChar (c : Char) : Bool :=
  isAlnum c || c = '_'

/-- The `char(c)` parser. -/
def charP (cap : ErrCap E) (c : Char) (i : List Char) : NRes E Char :=
  match i with
  | c' :: rest => if c' = c then .ok (rest, c) else .error (cap.fromChar i c)
  | [] => .error (cap.fromChar i c)

/-- The `tag(t)` parser. -/
def tagP (cap : ErrCap E) (t : List Char) (i : List Char) : NRes E (List Char) :=
  if i.take t.length = t then .ok (i.drop t.length, t)
  else .error (cap.fromErrorKind i .tg)

/-- The `take_until("\"")` parser: everything strictly before the first
double quote; fails when no double quote occurs. -/
def takeUntilQuote (cap : ErrCap E) (i : List Char) : NRes E (List Char) :=
  match i.dropWhile (fun c => !(c = '"')) with
  | [] => .error (cap.fromErrorKind i .takeUntil)
  | rest => .ok (rest, i.takeWhile (fun c => !(c = '"')))

/-- The `multispace0` parser (never fails). -/
def multispace0 (i : List Char) : NRes E (List Char) :=
  .ok (i.dropWhile isWs, i.takeWhile isWs)

/-- The `multispace1` parser. -/
def multispace1 (cap : ErrCap E) (i : List Char) : NRes E (List Char) :=
  match i.takeWhile isWs with
  | [] => .error (cap.fromErrorKind i .multiSpace)
  | taken => .ok (i.dropWhile isWs, taken)

/-- The `alphanumeric1` parser. -/
def alphanumeric1 (cap : ErrCap E) (i : List Char) : NRes E (List Char) :=
  match i.takeWhile isAlnum with
  | [] => .error (cap.fromErrorKind i .alphaNumeric)
  | taken => .ok (i.dropWhile isAlnum, taken)

/-- The crate's `is_not_no_fail(arr)`: `split_at_position_complete`,
consuming the run of characters not in `arr`; never fails. -/
def is_not_no_fail (arr : List Char) (i : List Char) : NRes E (List Char) :=
  .ok (i.dropWhile (fun c => !(arr.contains c)), i.takeWhile (fun c => !(arr.contains c)))

/-! ## nom combinators -/

/-- The `context(ctx, p)` combinator. -/
def contextC (cap : ErrCap E) (lbl : String) (p : List Char → NRes E α)
    (i : List Char) : NRes E α :=
  match p i with
  | .ok r => .ok r
  | .error e => .error (cap.addContext i lbl e)

/-- The binary `alt((p, q))` combinator. -/
def altC (cap : ErrCap E) (p q : List Char → NRes E α) (i : List Char) : NRes E α :=
  match p i with
  | .ok r => .ok r
  | .error e1 =>
    match q i with
    | .ok r => .ok r
    | .error e2 => .error (cap.appendKind i .altK (cap.orE e1 e2))

/-- The `map(p, f)` combinator. -/
def mapP (p : List Char → NRes E α) (f : α → β) (i : List Char) : NRes E β :=
  match p i with
  | .ok (i1, a) => .ok (i1, f a)
  | .error e => .error e

/-- The `value(v, p)` combinator. -/
def valueP (v : β) (p : List Char → NRes E α) (i : List Char) : NRes E β :=
  mapP p (fun _ => v) i

/-- The `pair(p, q)` combinator. -/
def pairP (p : List Char → NRes E α) (q : List Char → NRes E β) (i : List Char) :
    NRes E (α × β) :=
  match p i with
  | .error e => .error e
  | .ok (i1, a) =>
    match q i1 with
    | .error e => .error e
    | .ok (i2, b) => .ok (i2, (a, b))

/-- The `separated_pair(p, sep, q)` combinator. -/
def separatedPairP (p : List Char → NRes E α) (sep : List Char → NRes E γ)
    (q : List Char → NRes E β) (i : List Char) : NRes E (α × β) :=
  match p i with
  | .error e => .error e
  | .ok (i1, a) =>
    match sep i1 with
    | .error e => .error e
    | .ok (i2, _) =>
      match q i2 with
      | .error e => .error e
      | .ok (i3, b) => .ok (i3, (a, b))

/-- The `terminated(p, q)` combinator. -/
def terminatedP (p : List Char → NRes E α) (q : List Char → NRes E β)
    (i : List Char) : NRes E α :=
  match p i with
  | .error e => .error e
  | .ok (i1, a) =>
    match q i1 with
    | .error e => .error e
    | .ok (i2, _) => .ok (i2, a)

/-- The `recognize(p)` combinator: return the consumed prefix. -/
def recognizeP (p : List Char → NRes E α) (i : List Char) : NRes E (List Char) :=
  match p i with
  | .error e => .error e
  | .ok (i1, _) => .ok (i1, i.take (i.length - i1.length))

/-- Loop of `many0_count`/`many1_count`: count repetitions of `p`, stopping
at the first failure, and failing on a zero-consumption success (nom's
infinite-loop protection).  The fuel is always sufficient because each
iteration consumes input. -/
def manyCountGo (cap : ErrCap E) (k : NomKind) (p : List Char → NRes E α) :
    Nat → List Char → Nat → NRes E Nat
  | 0, i, cnt => .ok (i, cnt)
  | fuel+1, i, cnt =>
    match p i with
    | .error _ => .ok (i, cnt)
    | .ok (i1, _) =>
      if i1.length = i.length then .error (cap.fromErrorKind i1 k)
      else manyCountGo cap k p fuel i1 (cnt+1)

/-- The `many0_count(p)` combinator. -/
def many0CountP (cap : ErrCap E) (p : List Char → NRes E α) (i : List Char) :
    NRes E Nat :=
  manyCountGo cap .many0Count p (i.length + 1) i 0

/-- The `many1_count(p)` combinator. -/
def many1CountP (cap : ErrCap E) (p : List Char → NRes E α) (i : List Char) :
    NRes E Nat :=
  match p i with
  | .error _ => .error (cap.fromErrorKind i .many1Count)
  | .ok (i1, _) =>
    if i1.length = i.length then .error (cap.fromErrorKind i1 .many1Count)
    else manyCountGo cap .many1Count p (i1.length + 1) i1 1

/-- Loop of `many1` after its first success. -/
def many1Go (cap : ErrCap E) (p : List Char → NRes E α) :
    Nat → List Char → List α → NRes E (List α)
  | 0, i, acc => .ok (i, acc)
  | fuel+1, i, acc =>
    match p i with
    | .error _ => .ok (i, acc)
    | .ok (i1, a) =>
      if i1.length = i.length then .error (cap.fromErrorKind i .many1)
      else many1Go cap p fuel i1 (acc ++ [a])

/-- The `many1(p)` combinator. -/
def many1P (cap : ErrCap E) (p : List Char → NRes E α) (i : List Char) :
    NRes E (List α) :=
  match p i with
  | .error e => .error (cap.appendKind i .many1 e)
  | .ok (i1, a) => many1Go cap p (i1.length + 1) i1 [a]

/-! ## The crate's parsers (`owned/parsers.rs`) -/

/-- The crate's `ignore_whitespace(p)`: leading and trailing `multispace0`. -/
def ignore_whitespace (p : List Char → NRes E α) (i : List Char) : NRes E α :=
  match multispace0 (E := E) i with
  | .error e => .error e
  | .ok (i1, _) =>
    match p i1 with
    | .error e => .error e
    | .ok (i2, a) =>
      match multispace0 (E := E) i2 with
      | .error e => .error e
      | .ok (i3, _) => .ok (i3, a)

/-- The crate's `surrounded_by(first, second, third)`. -/
def surrounded_by (p1 : List Char → NRes E α) (p2 : List Char → NRes E β)
    (p3 : List Char → NRes E γ) (i : List Char) : NRes E β :=
  match p1 i with
  | .error e => .error e
  | .ok (i1, _) =>
    match p2 i1 with
    | .error e => .error e
    | .ok (i2, b) =>
      match p3 i2 with
      | .error e => .error e
      | .ok (i3, _) => .ok (i3, b)

/-- The crate's `string` parser: `"TEXT"` with no escape processing. -/
def string (cap : ErrCap E) (i : List Char) : NRes E (List Char) :=
  contextC cap "string error"
    (surrounded_by (charP cap '"') (takeUntilQuote cap) (charP cap '"')) i

/-- The crate's `identifier` parser. -/
def identifier (cap : ErrCap E) (i : List Char) : NRes E (List Char) :=
  contextC cap "bad identifier"
    (recognizeP (many1CountP cap (altC cap (alphanumeric1 cap) (tagP cap ['_'])))) i

/-- The crate's `comment` parser: `//` up to (not including) end of line. -/
def comment (cap : ErrCap E) (i : List Char) : NRes E Unit :=
  contextC cap "comment error"
    (valueP () (pairP (tagP cap ['/', '/']) (is_not_no_fail ['\n', '\r']))) i

/-- The crate's `ignorable` parser: a comment or a nonempty whitespace run. -/
def ignorable (cap : ErrCap E) (i : List Char) : NRes E Unit :=
  contextC cap "ignorable error"
    (altC cap (comment cap) (valueP () (multispace1 cap))) i

/-- The crate's `open_brace` parser. -/
def open_brace (cap : ErrCap E) (i : List Char) : NRes E Unit :=
  contextC cap "missing '\x7b'" (valueP () (ignore_whitespace (charP cap lbraceC))) i

/-- The crate's `property` parser. -/
def property (ofStr : List Char → S) (cap : ErrCap E) (i : List Char) :
    NRes E (Property S S) :=
  contextC cap "property error"
    (mapP (ignore_whitespace (separatedPairP (string cap) multispace0 (string cap)))
      (fun kv => ⟨ofStr kv.1, ofStr kv.2⟩)) i

mutual

/-- The crate's `block` parser: leading ignorables, identifier, open brace,
then the manual body loop. -/
def block (ofStr : List Char → S) (cap : ErrCap E) :
    Nat → List Char → NRes E (Block S)
  | 0, i => .error (cap.fromErrorKind i .failK)
  | fuel+1, i =>
    match many0CountP cap (ignorable cap) i with
    | .error e => .error e
    | .ok (i1, _) =>
      match terminatedP (ignore_whitespace (identifier cap)) (open_brace cap) i1 with
      | .error e => .error e
      | .ok (i2, name) => blockBody ofStr cap fuel i2 name [] []

/-- Body loop of `block`: property, nested block, ignorable, close brace, in
that priority order; terminates with an error when the input ends without a
closing brace (`missing \x7d in block`). -/
def blockBody (ofStr : List Char → S) (cap : ErrCap E) :
    Nat → List Char → List Char → List (Property S S) → List (Block S) →
    NRes E (Block S)
  | 0, i, _, _, _ => .error (cap.fromErrorKind i .failK)
  | fuel+1, i, name, props, blocks =>
    match property ofStr cap i with
    | .ok (i1, p) => blockBody ofStr cap fuel i1 name (props ++ [p]) blocks
    | .error _ =>
      match block ofStr cap fuel i with
      | .ok (i1, b) => blockBody ofStr cap fuel i1 name props (blocks ++ [b])
      | .error _ =>
        match ignorable cap i with
        | .ok (i1, _) => blockBody ofStr cap fuel i1 name props blocks
        | .error _ =>
          match ignore_whitespace (charP cap rbraceC) i with
          | .ok (i1, _) => .ok (i1, Block.mk (ofStr name) props blocks)
          | .error _ =>
            if i.isEmpty then
              .error (cap.addContext i "missing \x7d in block" (cap.fromErrorKind i .failK))
            else
              .error (cap.addContext i "no parsers matched in block"
                (cap.fromErrorKind i .failK))

end

/-- The crate's `vmf` parser: `map(many1(block), Vmf::new)`. -/
def vmf (ofStr : List Char → S) (cap : ErrCap E) (fuel : Nat) (i : List Char) :
    NRes E (Vmf S) :=
  mapP (many1P cap (block ofStr cap fuel)) (Vmf.new ofStr) i

/-- The crate's `parse` entry point (`lib.rs`): run `vmf`, discard the
remaining input on success.  Fuel `i.length + 2` always suffices because the
parser consumes input faster than it recurses. -/
def parse (ofStr : List Char → S) (cap : ErrCap E) (i : List Char) :
    Except E (Vmf S) :=
  match vmf ofStr cap (i.length + 2) i with
  | .ok (_, v) => .ok v
  | .error e => .error e

/-! ## Error-capability instantiations (`lib.rs` valid error types) -/

/-- Kinds recorded by `nom::error::VerboseErrorKind`. -/
inductive VKind where
  | ctx (lbl : String)
  | chrK (c : Char)
  | nomK (k : NomKind)
deriving DecidableEq

/-- Model of `nom::error::VerboseError`: the accumulated (input, kind) list. -/
abbrev VerboseErr : Type := List (List Char × VKind)

/-- Capability instance for `VerboseError` (full context chain). -/
def capVerbose : ErrCap VerboseErr where
  fromErrorKind i k := [(i, .nomK k)]
  appendKind i k e := e ++ [(i, .nomK k)]
  orE _ e2 := e2
  fromChar i c := [(i, .chrK c)]
  addContext i lbl e := e ++ [(i, .ctx lbl)]

/-- Model of `nom::error::Error`: input position and a single kind. -/
structure SimpleErr where
  input : List Char
  code : NomKind
deriving DecidableEq

/-- Capability instance for `nom::error::Error` (single message). -/
def capSimple : ErrCap SimpleErr where
  fromErrorKind i k := ⟨i, k⟩
  appendKind _ _ e := e
  orE _ e2 := e2
  fromChar i _ := ⟨i, .chr⟩
  addContext _ _ e := e

/-- Capability instance for the `(I, ErrorKind)` tuple error. -/
def capTuple : ErrCap (List Char × NomKind) where
  fromErrorKind i k := (i, k)
  appendKind _ _ e := e
  orE _ e2 := e2
  fromChar i _ := (i, .chr)
  addContext _ _ e := e

/-- Capability instance for the unit error `()` (success/fail only). -/
def capUnit : ErrCap Unit where
  fromErrorKind _ _ := ()
  appendKind _ _ _ := ()
  orE _ _ := ()
  fromChar _ _ := ()
  addContext _ _ _ := ()

/-- Canonical instantiation of `parse`: borrowed strings (`S = List Char`,
`From<&str>` is the identity) and the unit error type. -/
def parseC (i : List Char) : Except Unit (Vmf (List Char)) :=
  parse id capUnit i

/-- String-level canonical parse, as `Option`. -/
def parseStr (s : String) : Option (Vmf (List Char)) :=
  (parseC s.data).toOption

/-- Canonical instantiation of the `block` parser with the fuel `parse` uses. -/
def blockStr (s : String) : Option (List Char × Block (List Char)) :=
  (block id capUnit (s.data.length + 2) s.data).toOption

/-! ## Canonical serializer (`ast/display.rs`, `Display` impls)

`PadAdapter` output depends only on the concatenation of the strings
written through it (plus its initial `on_newline = false` state): it
inserts the padding `"\t"` exactly after each newline that is followed by
further content written through the same adapter.  `padB` is that pure
transformation. -/

/-- Pure `PadAdapter` transformation: insert `'\t'` after every `'\n'`
that has further content following it. -/
def padB : List Char → List Char
  | [] => []
  | c :: cs =>
    if c = '\n' then
      '\n' :: (match cs with
        | [] => []
        | _ => '\t' :: padB cs)
    else c :: padB cs

/-- Rendering of a property (`Display for Property`): `"key" "value"`. -/
def renderProp (toStr : S → List Char) (p : Property S S) : List Char :=
  '"' :: toStr p.key ++ '"' :: ' ' :: '"' :: toStr p.value ++ ['"']

/-- Property lines of a block body: each property followed by a newline. -/
def renderPropLines (toStr : S → List Char) : List (Property S S) → List Char
  | [] => []
  | p :: rest => renderProp toStr p ++ '\n' :: renderPropLines toStr rest

mutual

/-- Rendering of a block (`Display for Block`): name, newline, then the
brace-delimited body through a `PadAdapter`, then the closing brace. -/
def renderBlock (toStr : S → List Char) : Block S → List Char
  | .mk name props blocks =>
    toStr name ++ '\n' ::
      padB (lbraceC :: '\n' :: (renderPropLines toStr props ++ renderChildLines toStr blocks))
      ++ [rbraceC]

/-- Child lines of a block body: each child's rendering plus a newline. -/
def renderChildLines (toStr : S → List Char) : List (Block S) → List Char
  | [] => []
  | b :: rest => renderBlock toStr b ++ '\n' :: renderChildLines toStr rest

end

/-- Rendering of the top-level block list (`Display for Vmf`): blocks
separated by single newlines, no trailing newline, and no name or braces
for the root itself. -/
def renderTop (toStr : S → List Char) : List (Block S) → List Char
  | [] => []
  | [b] => renderBlock toStr b
  | b :: rest => renderBlock toStr b ++ '\n' :: renderTop toStr rest

/-- Rendering of a document (`Display for Vmf`, non-alternate). -/
def renderVmf (toStr : S → List Char) (v : Vmf S) : List Char :=
  renderTop toStr v.inner.blocks

/-- String-level canonical rendering of a document over `List Char` content. -/
def renderVmfStr (v : Vmf (List Char)) : String :=
  String.mk (renderVmf id v)

/-! ## ID-renumbering serializer (`ast/display.rs`, alternate mode) -/

/-- Counter state for the ID-renumbering pass (`IdState`). -/
structure IdState where
  max_world_id : Int
  max_solid_id : Int
  max_side_id : Int
  max_entity_id : Int
deriving DecidableEq

/-- Default counter state: all four counters start at 0. -/
def IdState.dflt : IdState := ⟨0, 0, 0, 0⟩

/-- Modelled from the spec: `Property::is_id` is used by `fmt_new_ids` but
its definition is not among the provided sources; per the spec (§4.7), a
property is an id property exactly when its key is `id`. -/
def Property.is_id (toStr : S → List Char) (p : Property S S) : Bool :=
  toStr p.key = "id".data

/-- The id property line `"id" "n"` followed by a newline, as written by
`write_new_id` via the `Property` `Display`. -/
def idLine (n : Int) : List Char :=
  renderProp id ⟨"id".data, (toString n).data⟩ ++ ['\n']

/-- The crate's `Block::write_new_id`: for the four recognized class names,
bump the class counter and emit the id line; otherwise write the whole
block (canonical rendering) followed by a newline, leaving the state
unchanged. -/
def write_new_id (toStr : S → List Char) (b : Block S) (st : IdState) :
    List Char × IdState :=
  if toStr b.name = "world".data then
    let n := st.max_world_id + 1
    (idLine n, { st with max_world_id := n })
  else if toStr b.name = "solid".data then
    let n := st.max_solid_id + 1
    (idLine n, { st with max_solid_id := n })
  else if toStr b.name = "side".data then
    let n := st.max_side_id + 1
    (idLine n, { st with max_side_id := n })
  else if toStr b.name = "entity".data then
    let n := st.max_entity_id + 1
    (idLine n, { st with max_entity_id := n })
  else
    (renderBlock toStr b ++ ['\n'], st)

mutual

/-- The crate's `Block::fmt_new_ids`: name, then through a `PadAdapter` the
open brace line, the `write_new_id` output, the non-id property lines and
the children (each followed by a newline), then the closing brace. -/
def fmt_new_ids (toStr : S → List Char) : Block S → IdState → List Char × IdState
  | .mk name props blocks, st =>
    let bw := write_new_id toStr (.mk name props blocks) st
    let propsPart := props.flatMap
      (fun p => if p.is_id toStr then [] else renderProp toStr p ++ ['\n'])
    let cw := fmtNewIdsChildren toStr blocks bw.2
    (toStr name ++ '\n' ::
        padB (lbraceC :: '\n' :: (bw.1 ++ propsPart ++ cw.1)) ++ [rbraceC],
      cw.2)

/-- Children loop of `fmt_new_ids`: each child rendered with the threaded
state, followed by a newline. -/
def fmtNewIdsChildren (toStr : S → List Char) :
    List (Block S) → IdState → List Char × IdState
  | [], st => ([], st)
  | c :: rest, st =>
    let cw := fmt_new_ids toStr c st
    let rw := fmtNewIdsChildren toStr rest cw.2
    (cw.1 ++ '\n' :: rw.1, rw.2)

end

/-- Top-level loop of `Display for Vmf` in alternate mode: fresh counter
state, blocks separated by single newlines, state threaded through. -/
def fmtNewIdsTop (toStr : S → List Char) : List (Block S) → IdState → List Char
  | [], _ => []
  | [b], st => (fmt_new_ids toStr b st).1
  | b :: rest, st =>
    let bw := fmt_new_ids toStr b st
    bw.1 ++ '\n' :: fmtNewIdsTop toStr rest bw.2

/-- The crate's `Vmf::to_string_new_ids` (equivalently `format!("{self:#}")`). -/
def to_string_new_ids (toStr : S → List Char) (v : Vmf S) : List Char :=
  fmtNewIdsTop toStr v.inner.blocks IdState.dflt

/-- String-level ID-renumbering rendering over `List Char` content. -/
def toStringNewIdsStr (v : Vmf (List Char)) : String :=
  String.mk (to_string_new_ids id v)

/-! ## Representation / error-type independence

The parsers are generic over the string representation `S` (`From<&str>`)
and the error type `E`.  Neither choice influences the control flow: `S`
only receives the parsed slices and `E` is only written to.  The
following relational lemmas make that precise.  `resMap f` projects a
parser result to its success part, mapping the value through `f`. -/

/-- Success projection of a parser result, mapping the value. -/
def resMap (f : α → β) : NRes E α → Option (List Char × β)
  | .ok (i, a) => some (i, f a)
  | .error _ => none

/-- Map a property's content. -/
def Property.mapS (f : S1 → S2) (p : Property S1 S1) : Property S2 S2 :=
  ⟨f p.key, f p.value⟩

mutual

/-- Map a block's content. -/
def Block.mapS (f : S1 → S2) : Block S1 → Block S2
  | .mk name props blocks =>
    .mk (f name) (props.map (Property.mapS f)) (Block.mapSList f blocks)

/-- Map the content of a list of blocks. -/
def Block.mapSList (f : S1 → S2) : List (Block S1) → List (Block S2)
  | [] => []
  | b :: rest => Block.mapS f b :: Block.mapSList f rest

end

/-- Map a document's content. -/
def Vmf.mapS (f : S1 → S2) (v : Vmf S1) : Vmf S2 :=
  ⟨Block.mapS f v.inner⟩

section Rel

variable {E1 E2 : Type} (cap1 : ErrCap E1) (cap2 : ErrCap E2)

/-- Case analysis of two related parser results: either both succeed with
the same remaining input and values related by `f`, or both fail. -/
theorem resMap_cases {f : α → β} {x : NRes E1 α} {y : NRes E2 β}
    (h : resMap f x = resMap id y) :
    (∃ i1 a, x = .ok (i1, a) ∧ y = .ok (i1, f a)) ∨
    ((∃ e1, x = .error e1) ∧ ∃ e2, y = .error e2) := by
  cases x with
  | ok v =>
    obtain ⟨i1, a⟩ := v
    cases y with
    | ok w =>
      obtain ⟨i2, b⟩ := w
      simp only [resMap, Option.some.injEq, Prod.mk.injEq, id_eq] at h
      exact Or.inl ⟨i1, a, rfl, by rw [h.1, h.2]⟩
    | error e => simp [resMap] at h
  | error e =>
    cases y with
    | ok w => simp [resMap] at h
    | error e2 => exact Or.inr ⟨⟨e, rfl⟩, e2, rfl⟩

theorem charP_rel (c : Char) (i : List Char) :
    resMap id (charP cap1 c i) = resMap id (charP cap2 c i) := by
  cases i with
  | nil => rfl
  | cons c' rest => simp only [charP]; split <;> rfl

theorem tagP_rel (t : List Char) (i : List Char) :
    resMap id (tagP cap1 t i) = resMap id (tagP cap2 t i) := by
  simp only [tagP]; split <;> rfl

theorem takeUntilQuote_rel (i : List Char) :
    resMap id (takeUntilQuote cap1 i) = resMap id (takeUntilQuote cap2 i) := by
  simp only [takeUntilQuote]; split <;> rfl

theorem multispace1_rel (i : List Char) :
    resMap id (multispace1 cap1 i) = resMap id (multispace1 cap2 i) := by
  simp only [multispace1]; split <;> rfl

theorem alphanumeric1_rel (i : List Char) :
    resMap id (alphanumeric1 cap1 i) = resMap id (alphanumeric1 cap2 i) := by
  simp only [alphanumeric1]; split <;> rfl

theorem contextC_rel {p1 : List Char → NRes E1 α} {p2 : List Char → NRes E2 β}
    {f : α → β} (h : ∀ j, resMap f (p1 j) = resMap id (p2 j)) (lbl : String)
    (i : List Char) :
    resMap f (contextC cap1 lbl p1 i) = resMap id (contextC cap2 lbl p2 i) := by
  simp only [contextC]
  rcases resMap_cases (h i) with ⟨i1, a, hx, hy⟩ | ⟨⟨e1, hx⟩, e2, hy⟩ <;>
    simp only [hx, hy] <;> rfl

theorem altC_rel {p1 q1 : List Char → NRes E1 α} {p2 q2 : List Char → NRes E2 β}
    {f : α → β} (hp : ∀ j, resMap f (p1 j) = resMap id (p2 j))
    (hq : ∀ j, resMap f (q1 j) = resMap id (q2 j)) (i : List Char) :
    resMap f (altC cap1 p1 q1 i) = resMap id (altC cap2 p2 q2 i) := by
  simp only [altC]
  rcases resMap_cases (hp i) with ⟨i1, a, hx, hy⟩ | ⟨⟨e1, hx⟩, e2, hy⟩ <;>
    simp only [hx, hy]
  · rfl
  · rcases resMap_cases (hq i) with ⟨i1, a, hx2, hy2⟩ | ⟨⟨e3, hx2⟩, e4, hy2⟩ <;>
      simp only [hx2, hy2] <;> rfl

theorem mapP_rel {p1 : List Char → NRes E1 α} {p2 : List Char → NRes E2 β}
    {f : α → β} (h : ∀ j, resMap f (p1 j) = resMap id (p2 j))
    {g1 : α → γ} {g2 : β → δ} {f2 : γ → δ}
    (hg : ∀ a, f2 (g1 a) = g2 (f a)) (i : List Char) :
    resMap f2 (mapP p1 g1 i) = resMap id (mapP p2 g2 i) := by
  simp only [mapP]
  rcases resMap_cases (h i) with ⟨i1, a, hx, hy⟩ | ⟨⟨e1, hx⟩, e2, hy⟩ <;>
    simp only [hx, hy]
  · simp [resMap, hg]
  · rfl

theorem valueP_rel {p1 : List Char → NRes E1 α} {p2 : List Char → NRes E2 β}
    {f : α → β} (h : ∀ j, resMap f (p1 j) = resMap id (p2 j)) (v : γ)
    (i : List Char) :
    resMap id (valueP v p1 i) = resMap id (valueP v p2 i) := by
  simp only [valueP, mapP]
  rcases resMap_cases (h i) with ⟨i1, a, hx, hy⟩ | ⟨⟨e1, hx⟩, e2, hy⟩ <;>
    simp only [hx, hy] <;> rfl

theorem pairP_rel {p1 : List Char → NRes E1 α} {p2 : List Char → NRes E2 α2}
    {q1 : List Char → NRes E1 β} {q2 : List Char → NRes E2 β2}
    {f : α → α2} {g : β → β2}
    (hp : ∀ j, resMap f (p1 j) = resMap id (p2 j))
    (hq : ∀ j, resMap g (q1 j) = resMap id (q2 j)) (i : List Char) :
    resMap (Prod.map f g) (pairP p1 q1 i) = resMap id (pairP p2 q2 i) := by
  simp only [pairP]
  rcases resMap_cases (hp i) with ⟨i1, a, hx, hy⟩ | ⟨⟨e1, hx⟩, e2, hy⟩ <;>
    simp only [hx, hy]
  · rcases resMap_cases (hq i1) with ⟨i2, b, hx2, hy2⟩ | ⟨⟨e3, hx2⟩, e4, hy2⟩ <;>
      simp only [hx2, hy2] <;> rfl
  · rfl

theorem separatedPairP_rel {p1 : List Char → NRes E1 α} {p2 : List Char → NRes E2 α2}
    {s1 : List Char → NRes E1 γ} {s2 : List Char → NRes E2 γ2}
    {q1 : List Char → NRes E1 β} {q2 : List Char → NRes E2 β2}
    {f : α → α2} {fs : γ → γ2} {g : β → β2}
    (hp : ∀ j, resMap f (p1 j) = resMap id (p2 j))
    (hs : ∀ j, resMap fs (s1 j) = resMap id (s2 j))
    (hq : ∀ j, resMap g (q1 j) = resMap id (q2 j)) (i : List Char) :
    resMap (Prod.map f g) (separatedPairP p1 s1 q1 i) =
      resMap id (separatedPairP p2 s2 q2 i) := by
  simp only [separatedPairP]
  rcases resMap_cases (hp i) with ⟨i1, a, hx, hy⟩ | ⟨⟨e1, hx⟩, e2, hy⟩ <;>
    simp only [hx, hy]
  · rcases resMap_cases (hs i1) with ⟨i2, c, hx2, hy2⟩ | ⟨⟨e3, hx2⟩, e4, hy2⟩ <;>
      simp only [hx2, hy2]
    · rcases resMap_cases (hq i2) with ⟨i3, b, hx3, hy3⟩ | ⟨⟨e5, hx3⟩, e6, hy3⟩ <;>
        simp only [hx3, hy3] <;> rfl
    · rfl
  · rfl

theorem terminatedP_rel {p1 : List Char → NRes E1 α} {p2 : List Char → NRes E2 α2}
    {q1 : List Char → NRes E1 β} {q2 : List Char → NRes E2 β2}
    {f : α → α2} {g : β → β2}
    (hp : ∀ j, resMap f (p1 j) = resMap id (p2 j))
    (hq : ∀ j, resMap g (q1 j) = resMap id (q2 j)) (i : List Char) :
    resMap f (terminatedP p1 q1 i) = resMap id (terminatedP p2 q2 i) := by
  simp only [terminatedP]
  rcases resMap_cases (hp i) with ⟨i1, a, hx, hy⟩ | ⟨⟨e1, hx⟩, e2, hy⟩ <;>
    simp only [hx, hy]
  · rcases resMap_cases (hq i1) with ⟨i2, b, hx2, hy2⟩ | ⟨⟨e3, hx2⟩, e4, hy2⟩ <;>
      simp only [hx2, hy2] <;> rfl
  · rfl

theorem recognizeP_rel {p1 : List Char → NRes E1 α} {p2 : List Char → NRes E2 β}
    {f : α → β} (h : ∀ j, resMap f (p1 j) = resMap id (p2 j)) (i : List Char) :
    resMap id (recognizeP p1 i) = resMap id (recognizeP p2 i) := by
  simp only [recognizeP]
  rcases resMap_cases (h i) with ⟨i1, a, hx, hy⟩ | ⟨⟨e1, hx⟩, e2, hy⟩ <;>
    simp only [hx, hy] <;> rfl

theorem manyCountGo_rel (k : NomKind) {p1 : List Char → NRes E1 α}
    {p2 : List Char → NRes E2 β} {f : α → β}
    (h : ∀ j, resMap f (p1 j) = resMap id (p2 j)) :
    ∀ fuel i cnt, resMap id (manyCountGo cap1 k p1 fuel i cnt) =
      resMap id (manyCountGo cap2 k p2 fuel i cnt) := by
  intro fuel
  induction fuel with
  | zero => intro i cnt; rfl
  | succ n ih =>
    intro i cnt
    simp only [manyCountGo]
    rcases resMap_cases (h i) with ⟨i1, a, hx, hy⟩ | ⟨⟨e1, hx⟩, e2, hy⟩ <;>
      simp only [hx, hy]
    · by_cases hl : i1.length = i.length
      · simp [hl, resMap]
      · simp only [if_neg hl]
        exact ih i1 (cnt+1)
    · rfl

theorem many0CountP_rel {p1 : List Char → NRes E1 α} {p2 : List Char → NRes E2 β}
    {f : α → β} (h : ∀ j, resMap f (p1 j) = resMap id (p2 j)) (i : List Char) :
    resMap id (many0CountP cap1 p1 i) = resMap id (many0CountP cap2 p2 i) := by
  simp only [many0CountP]
  exact manyCountGo_rel cap1 cap2 _ h _ i 0

theorem many1CountP_rel {p1 : List Char → NRes E1 α} {p2 : List Char → NRes E2 β}
    {f : α → β} (h : ∀ j, resMap f (p1 j) = resMap id (p2 j)) (i : List Char) :
    resMap id (many1CountP cap1 p1 i) = resMap id (many1CountP cap2 p2 i) := by
  simp only [many1CountP]
  rcases resMap_cases (h i) with ⟨i1, a, hx, hy⟩ | ⟨⟨e1, hx⟩, e2, hy⟩ <;>
    simp only [hx, hy]
  · by_cases hl : i1.length = i.length
    · simp [hl, resMap]
    · simp only [if_neg hl]
      exact manyCountGo_rel cap1 cap2 _ h _ i1 1
  · rfl

theorem many1Go_rel {p1 : List Char → NRes E1 α} {p2 : List Char → NRes E2 β}
    {f : α → β} (h : ∀ j, resMap f (p1 j) = resMap id (p2 j)) :
    ∀ fuel i acc, resMap (List.map f) (many1Go cap1 p1 fuel i acc) =
      resMap id (many1Go cap2 p2 fuel i (acc.map f)) := by
  intro fuel
  induction fuel with
  | zero => intro i acc; rfl
  | succ n ih =>
    intro i acc
    simp only [many1Go]
    rcases resMap_cases (h i) with ⟨i1, a, hx, hy⟩ | ⟨⟨e1, hx⟩, e2, hy⟩ <;>
      simp only [hx, hy]
    · by_cases hl : i1.length = i.length
      · simp [hl, resMap]
      · simp only [if_neg hl]
        have := ih i1 (acc ++ [a])
        simpa using this
    · rfl

theorem many1P_rel {p1 : List Char → NRes E1 α} {p2 : List Char → NRes E2 β}
    {f : α → β} (h : ∀ j, resMap f (p1 j) = resMap id (p2 j)) (i : List Char) :
    resMap (List.map f) (many1P cap1 p1 i) = resMap id (many1P cap2 p2 i) := by
  simp only [many1P]
  rcases resMap_cases (h i) with ⟨i1, a, hx, hy⟩ | ⟨⟨e1, hx⟩, e2, hy⟩ <;>
    simp only [hx, hy]
  · have := many1Go_rel cap1 cap2 h (i1.length + 1) i1 [a]
    simpa using this
  · rfl

end Rel

/-- Helper: the mutual list mapper agrees with `List.map`. -/
theorem Block.mapSList_eq_map (f : S1 → S2) (l : List (Block S1)) :
    Block.mapSList f l = l.map (Block.mapS f) := by
  induction l with
  | nil => rfl
  | cons b rest ih => simp [Block.mapSList, ih]

section RelParsers

variable {E1 E2 S1 S2 : Type} (cap1 : ErrCap E1) (cap2 : ErrCap E2)
variable (ofStr1 : List Char → S1) (ofStr2 : List Char → S2) (f : S1 → S2)

theorem multispace0_rel (i : List Char) :
    resMap id (multispace0 (E := E1) i) = resMap id (multispace0 (E := E2) i) := rfl

theorem is_not_no_fail_rel (arr i : List Char) :
    resMap id (is_not_no_fail (E := E1) arr i) =
      resMap id (is_not_no_fail (E := E2) arr i) := rfl

theorem ignore_whitespace_rel {p1 : List Char → NRes E1 α}
    {p2 : List Char → NRes E2 β} {g : α → β}
    (h : ∀ j, resMap g (p1 j) = resMap id (p2 j)) (i : List Char) :
    resMap g (ignore_whitespace p1 i) = resMap id (ignore_whitespace p2 i) := by
  simp only [ignore_whitespace, multispace0]
  rcases resMap_cases (h (i.dropWhile isWs)) with ⟨i1, a, hx, hy⟩ | ⟨⟨e1, hx⟩, e2, hy⟩ <;>
    simp only [hx, hy] <;> rfl

theorem surrounded_by_rel {p1 : List Char → NRes E1 α} {p2 : List Char → NRes E2 α2}
    {q1 : List Char → NRes E1 β} {q2 : List Char → NRes E2 β2}
    {r1 : List Char → NRes E1 γ} {r2 : List Char → NRes E2 γ2}
    {g : α → α2} {g2 : β → β2} {g3 : γ → γ2}
    (hp : ∀ j, resMap g (p1 j) = resMap id (p2 j))
    (hq : ∀ j, resMap g2 (q1 j) = resMap id (q2 j))
    (hr : ∀ j, resMap g3 (r1 j) = resMap id (r2 j)) (i : List Char) :
    resMap g2 (surrounded_by p1 q1 r1 i) = resMap id (surrounded_by p2 q2 r2 i) := by
  simp only [surrounded_by]
  rcases resMap_cases (hp i) with ⟨i1, a, hx, hy⟩ | ⟨⟨e1, hx⟩, e2, hy⟩ <;>
    simp only [hx, hy]
  · rcases resMap_cases (hq i1) with ⟨i2, b, hx2, hy2⟩ | ⟨⟨e3, hx2⟩, e4, hy2⟩ <;>
      simp only [hx2, hy2]
    · rcases resMap_cases (hr i2) with ⟨i3, c, hx3, hy3⟩ | ⟨⟨e5, hx3⟩, e6, hy3⟩ <;>
        simp only [hx3, hy3] <;> rfl
    · rfl
  · rfl

theorem string_rel (i : List Char) :
    resMap id (string cap1 i) = resMap id (string cap2 i) := by
  simp only [string]
  apply contextC_rel
  intro j
  apply surrounded_by_rel
  · intro j2; exact charP_rel cap1 cap2 '"' j2
  · intro j2; exact takeUntilQuote_rel cap1 cap2 j2
  · intro j2; exact charP_rel cap1 cap2 '"' j2

theorem identifier_rel (i : List Char) :
    resMap id (identifier cap1 i) = resMap id (identifier cap2 i) := by
  simp only [identifier]
  apply contextC_rel
  intro j
  apply recognizeP_rel
  intro j2
  apply many1CountP_rel
  intro j3
  apply altC_rel
  · intro j4; exact alphanumeric1_rel cap1 cap2 j4
  · intro j4; exact tagP_rel cap1 cap2 ['_'] j4

theorem comment_rel (i : List Char) :
    resMap id (comment cap1 i) = resMap id (comment cap2 i) := by
  simp only [comment]
  apply contextC_rel
  intro j
  apply valueP_rel
  intro j2
  apply pairP_rel
  · intro j3; exact tagP_rel cap1 cap2 ['/', '/'] j3
  · intro j3; exact is_not_no_fail_rel ['\n', '\r'] j3

theorem ignorable_rel (i : List Char) :
    resMap id (ignorable cap1 i) = resMap id (ignorable cap2 i) := by
  simp only [ignorable]
  apply contextC_rel
  intro j
  apply altC_rel
  · intro j2; exact comment_rel cap1 cap2 j2
  · intro j2
    apply valueP_rel
    intro j3
    exact multispace1_rel cap1 cap2 j3

theorem open_brace_rel (i : List Char) :
    resMap id (open_brace cap1 i) = resMap id (open_brace cap2 i) := by
  simp only [open_brace]
  apply contextC_rel
  intro j
  apply valueP_rel
  intro j2
  apply ignore_whitespace_rel
  intro j3
  exact charP_rel cap1 cap2 lbraceC j3

theorem property_rel (hf : ∀ cs, f (ofStr1 cs) = ofStr2 cs) (i : List Char) :
    resMap (Property.mapS f) (property ofStr1 cap1 i) =
      resMap id (property ofStr2 cap2 i) := by
  simp only [property]
  apply contextC_rel
  intro j
  apply mapP_rel
  · intro j2
    apply ignore_whitespace_rel
    intro j3
    apply separatedPairP_rel
    · intro j4; exact string_rel cap1 cap2 j4
    · intro j4; exact multispace0_rel j4
    · intro j4; exact string_rel cap1 cap2 j4
  · intro kv
    simp [Property.mapS, hf, Prod.map]

theorem block_blockBody_rel (hf : ∀ cs, f (ofStr1 cs) = ofStr2 cs) :
    ∀ fuel,
      (∀ i, resMap (Block.mapS f) (block ofStr1 cap1 fuel i) =
        resMap id (block ofStr2 cap2 fuel i)) ∧
      (∀ i nm props blocks,
        resMap (Block.mapS f) (blockBody ofStr1 cap1 fuel i nm props blocks) =
          resMap id (blockBody ofStr2 cap2 fuel i nm (props.map (Property.mapS f))
            (Block.mapSList f blocks))) := by
  intro fuel
  induction fuel with
  | zero => exact ⟨fun _ => rfl, fun _ _ _ _ => rfl⟩
  | succ n ih =>
    constructor
    · intro i
      simp only [block]
      have h0 : resMap id (many0CountP cap1 (ignorable cap1) i) =
          resMap id (many0CountP cap2 (ignorable cap2) i) :=
        many0CountP_rel cap1 cap2 (fun j => ignorable_rel cap1 cap2 j) i
      rcases resMap_cases h0 with ⟨i1, cnt, hx, hy⟩ | ⟨⟨e1, hx⟩, e2, hy⟩ <;>
        simp only [hx, hy]
      · have h1 : resMap id
            (terminatedP (ignore_whitespace (identifier cap1)) (open_brace cap1) i1) =
            resMap id
            (terminatedP (ignore_whitespace (identifier cap2)) (open_brace cap2) i1) := by
          apply terminatedP_rel
          · intro j
            apply ignore_whitespace_rel
            intro j2
            exact identifier_rel cap1 cap2 j2
          · intro j; exact open_brace_rel cap1 cap2 j
        rcases resMap_cases h1 with ⟨i2, nm, hx2, hy2⟩ | ⟨⟨e3, hx2⟩, e4, hy2⟩ <;>
          simp only [hx2, hy2]
        · exact ih.2 i2 nm [] []
        · rfl
      · rfl
    · intro i nm props blocks
      simp only [blockBody]
      have hp := property_rel cap1 cap2 ofStr1 ofStr2 f hf i
      rcases resMap_cases hp with ⟨i1, p, hx, hy⟩ | ⟨⟨e1, hx⟩, e2, hy⟩ <;>
        simp only [hx, hy]
      · have := ih.2 i1 nm (props ++ [p]) blocks
        simpa using this
      · have hb := ih.1 i
        rcases resMap_cases hb with ⟨i1, b, hx2, hy2⟩ | ⟨⟨e3, hx2⟩, e4, hy2⟩ <;>
          simp only [hx2, hy2]
        · have := ih.2 i1 nm props (blocks ++ [b])
          simpa [Block.mapSList_eq_map] using this
        · have hig := ignorable_rel cap1 cap2 i
          rcases resMap_cases hig with ⟨i1', u, hx3, hy3⟩ | ⟨⟨e5, hx3⟩, e6, hy3⟩ <;>
            simp only [hx3, hy3]
          · exact ih.2 i1' nm props blocks
          · have hc : resMap id (ignore_whitespace (charP cap1 rbraceC) i) =
                resMap id (ignore_whitespace (charP cap2 rbraceC) i) := by
              apply ignore_whitespace_rel
              intro j
              exact charP_rel cap1 cap2 rbraceC j
            rcases resMap_cases hc with ⟨i1'', c, hx4, hy4⟩ | ⟨⟨e7, hx4⟩, e8, hy4⟩ <;>
              simp only [hx4, hy4]
            · simp [resMap, Block.mapS, hf, Block.mapSList_eq_map]
            · by_cases he : i.isEmpty <;> simp [he, resMap]

theorem vmf_rel (hf : ∀ cs, f (ofStr1 cs) = ofStr2 cs) (fuel : Nat) (i : List Char) :
    resMap (Vmf.mapS f) (vmf ofStr1 cap1 fuel i) =
      resMap id (vmf ofStr2 cap2 fuel i) := by
  simp only [vmf]
  apply mapP_rel
  · intro j
    apply many1P_rel
    intro j2
    exact (block_blockBody_rel cap1 cap2 ofStr1 ofStr2 f hf fuel).1 j2
  · intro bs
    simp [Vmf.mapS, Vmf.new, Block.mapS, hf, Block.mapSList_eq_map]

/-- Master parametricity statement for `parse`: the success/failure outcome
and (mapped) result tree are independent of both the error capability and
the string representation. -/
theorem parse_rel (hf : ∀ cs, f (ofStr1 cs) = ofStr2 cs) (i : List Char) :
    (parse ofStr1 cap1 i).toOption.map (Vmf.mapS f) =
      (parse ofStr2 cap2 i).toOption := by
  simp only [parse]
  have h := vmf_rel cap1 cap2 ofStr1 ofStr2 f hf (i.length + 2) i
  rcases resMap_cases h with ⟨i1, v, hx, hy⟩ | ⟨⟨e1, hx⟩, e2, hy⟩ <;>
    simp only [hx, hy] <;> rfl

end RelParsers

/-- Mapping with the identity leaves a property unchanged. -/
theorem propMapS_ident (p : Property S S) : Property.mapS id p = p := rfl

mutual

/-- Mapping with the identity leaves a block unchanged. -/
theorem blockMapS_ident : ∀ b : Block S, Block.mapS id b = b
  | .mk name props blocks => by
    have h1 : props.map (Property.mapS id) = props := by
      have he : Property.mapS (id : S → S) = id := funext fun _ => rfl
      rw [he, List.map_id]
    have h2 : Block.mapSList id blocks = blocks := Block.mapSList_id blocks
    rw [Block.mapS, h1, h2]
    rfl

/-- Mapping with the identity leaves a block list unchanged. -/
theorem Block.mapSList_id : ∀ bs : List (Block S), Block.mapSList id bs = bs
  | [] => rfl
  | b :: rest => by
    show Block.mapS id b :: Block.mapSList id rest = b :: rest
    rw [blockMapS_ident b, Block.mapSList_id rest]

end

/-- Mapping with the identity leaves a document unchanged. -/
theorem vmfMapS_ident (v : Vmf S) : Vmf.mapS id v = v := by
  obtain ⟨b⟩ := v
  simp [Vmf.mapS, blockMapS_ident]

/-- Rendering a mapped property composes the content functions. -/
theorem renderProp_mapS (g : S1 → S2) (t : S2 → List Char) (p : Property S1 S1) :
    renderProp t (Property.mapS g p) = renderProp (fun x => t (g x)) p := rfl

/-- Rendering mapped property lines composes the content functions. -/
theorem renderPropLines_mapS (g : S1 → S2) (t : S2 → List Char)
    (props : List (Property S1 S1)) :
    renderPropLines t (props.map (Property.mapS g)) =
      renderPropLines (fun x => t (g x)) props := by
  induction props with
  | nil => rfl
  | cons p rest ih =>
    simp only [List.map_cons, renderPropLines, ih]
    rw [renderProp_mapS]

mutual

/-- Rendering a mapped block composes the content functions. -/
theorem renderBlock_mapS (g : S1 → S2) (t : S2 → List Char) :
    ∀ b : Block S1, renderBlock t (Block.mapS g b) = renderBlock (fun x => t (g x)) b
  | .mk name props blocks => by
    simp only [Block.mapS, renderBlock]
    rw [renderPropLines_mapS, renderChildLines_mapS g t blocks]

/-- Rendering mapped child lines composes the content functions. -/
theorem renderChildLines_mapS (g : S1 → S2) (t : S2 → List Char) :
    ∀ bs : List (Block S1),
      renderChildLines t (Block.mapSList g bs) =
        renderChildLines (fun x => t (g x)) bs
  | [] => rfl
  | b :: rest => by
    simp only [Block.mapSList, renderChildLines]
    rw [renderBlock_mapS g t b, renderChildLines_mapS g t rest]

end

/-- Rendering a mapped top-level list composes the content functions. -/
theorem renderTop_mapS (g : S1 → S2) (t : S2 → List Char) :
    ∀ bs : List (Block S1),
      renderTop t (Block.mapSList g bs) = renderTop (fun x => t (g x)) bs
  | [] => rfl
  | [b] => by simp only [Block.mapSList, renderTop, renderBlock_mapS]
  | b :: b2 :: rest => by
    simp only [Block.mapSList, renderTop]
    rw [renderBlock_mapS g t b]
    have := renderTop_mapS g t (b2 :: rest)
    simp only [Block.mapSList] at this
    rw [this]

/-- Rendering a mapped document composes the content functions. -/
theorem renderVmf_mapS (g : S1 → S2) (t : S2 → List Char) (v : Vmf S1) :
    renderVmf t (Vmf.mapS g v) = renderVmf (fun x => t (g x)) v := by
  obtain ⟨b⟩ := v
  obtain ⟨name, props, blocks⟩ := b
  simp only [Vmf.mapS, renderVmf, Block.mapS, Block.blocks]
  exact renderTop_mapS g t blocks

/-- Helper: `parse` accepts the same inputs with the same trees under any
two error capabilities (borrowed-string instantiation). -/
theorem parse_toOption_eq {E1 E2 : Type} (cap1 : ErrCap E1) (cap2 : ErrCap E2)
    (i : List Char) :
    (parse (S := List Char) id cap1 i).toOption = (parse id cap2 i).toOption := by
  have h := parse_rel cap1 cap2 id id id (fun _ => rfl) i
  have he : Vmf.mapS (id : List Char → List Char) = id := funext fun v => vmfMapS_ident v
  rw [he, Option.map_id] at h
  exact h

/-- The error-determinism example input from the spec. -/
def badPropertyInput : String := "block\x7b\"property_with_no_value\"\x7d"

/-- C6: for every input, `parse` accepts under one error-capability
instantiation (full context chain, single message, position+category, unit)
iff it accepts under each of the others, with the same tree on success; and
the input `block\x7b"property_with_no_value"\x7d` fails under every
instantiation, with the failure position at the first string of the
property (at/before the expected second string). -/
theorem C6_error_capability_equivalence :
    (∀ s : String,
      (parse id capVerbose s.data).toOption = (parse id capUnit s.data).toOption ∧
      (parse id capSimple s.data).toOption = (parse id capUnit s.data).toOption ∧
      (parse id capTuple s.data).toOption = (parse id capUnit s.data).toOption) ∧
    (parse id capVerbose badPropertyInput.data).toOption = none ∧
    (parse id capSimple badPropertyInput.data).toOption = none ∧
    (parse id capTuple badPropertyInput.data).toOption = none ∧
    (parse id capUnit badPropertyInput.data).toOption = none ∧
    parse id capSimple badPropertyInput.data =
      .error ⟨"\"property_with_no_value\"\x7d".data, .failK⟩ := by
  refine ⟨fun s => ⟨?_, ?_, ?_⟩, ?_, ?_, ?_, ?_, ?_⟩
  · exact parse_toOption_eq capVerbose capUnit s.data
  · exact parse_toOption_eq capSimple capUnit s.data
  · exact parse_toOption_eq capTuple capUnit s.data
  · rfl
  · rfl
  · rfl
  · rfl
  · rfl

/-- C7: parsing with an arbitrary owned string representation (any `S` with
`From<&str>` given by `ofStr`, faithfully readable back via `toStr`) accepts
exactly the same inputs as the zero-copy representation, produces
structurally equal trees (same names, keys, values, order and nesting), and
the canonical serializations agree byte for byte. -/
theorem C7_representation_independence :
    ∀ (S : Type) (ofStr : List Char → S) (toStr : S → List Char),
      (∀ cs, toStr (ofStr cs) = cs) →
      ∀ s : String,
        ((parse ofStr capUnit s.data).toOption.isSome ↔
          (parse id capUnit s.data).toOption.isSome) ∧
        (parse ofStr capUnit s.data).toOption.map (Vmf.mapS toStr) =
          (parse id capUnit s.data).toOption ∧
        (parse ofStr capUnit s.data).toOption.map (renderVmf toStr) =
          (parse id capUnit s.data).toOption.map (renderVmf id) := by
  intro S ofStr toStr hf s
  have h := parse_rel capUnit capUnit ofStr id toStr hf s.data
  refine ⟨?_, h, ?_⟩
  · rw [← h]
    cases (parse ofStr capUnit s.data).toOption <;> simp
  · rw [← h]
    cases ho : (parse ofStr capUnit s.data).toOption with
    | none => rfl
    | some v =>
      simp only [Option.map_some']
      rw [renderVmf_mapS]
      rfl

/-- Witness for C7 at the concrete instantiation `S = List Char`. -/
theorem C7_witness :
    ((parse (S := List Char) id capUnit "a\x7b\x7d".data).toOption.isSome ↔
      (parse id capUnit "a\x7b\x7d".data).toOption.isSome) ∧
    (parse (S := List Char) id capUnit "a\x7b\x7d".data).toOption.map (Vmf.mapS id) =
      (parse id capUnit "a\x7b\x7d".data).toOption ∧
    (parse (S := List Char) id capUnit "a\x7b\x7d".data).toOption.map (renderVmf id) =
      (parse id capUnit "a\x7b\x7d".data).toOption.map (renderVmf id) :=
  C7_representation_independence (List Char) id id (fun _ => rfl) "a\x7b\x7d"

/-- A document holding one unrecognized block `brush` with an `id` property. -/
def brushDoc : Vmf (List Char) :=
  ⟨Block.mk "root".data [] [Block.mk "brush".data [⟨"id".data, "77".data⟩] []]⟩

/-- C2 (code bug): under ID-renumbering rendering, the unrecognized block
`brush` with property `"id" "77"` is NOT rendered verbatim: `write_new_id`'s
fallback writes the whole block through the adapter, after which
`fmt_new_ids` still emits the non-id properties and children again, so the
block appears duplicated (nested inside itself) and its own `id` line
survives only inside the duplicated copy. -/
theorem C2_unrecognized_not_verbatim :
    toStringNewIdsStr brushDoc =
      "brush\n\x7b\n\tbrush\n\t\x7b\n\t\t\"id\" \"77\"\n\t\x7d\n\x7d" ∧
    renderVmfStr brushDoc = "brush\n\x7b\n\t\"id\" \"77\"\n\x7d" ∧
    toStringNewIdsStr brushDoc ≠ renderVmfStr brushDoc := by
  refine ⟨rfl, rfl, ?_⟩
  decide

/-- The ID-renumbering example document from the spec: `world`, `world`,
`solid` (with two `side` children), `solid`, `entity`, `entity` (with a
nested `entity`). -/
def renumberExampleDoc : Vmf (List Char) :=
  ⟨Block.mk "root".data []
    [Block.mk "world".data [] [],
     Block.mk "world".data [] [],
     Block.mk "solid".data []
       [Block.mk "side".data [] [], Block.mk "side".data [] []],
     Block.mk "solid".data [] [],
     Block.mk "entity".data [] [],
     Block.mk "entity".data [] [Block.mk "entity".data [] []]]⟩

/-- C4: ID-renumbering rendering numbers each recognized class across the
whole document in pre-order: `world` 1,2; `solid` 1,2; `side` 1,2; `entity`
1,2,3; the counters start from the default state (all zero) privately in
each call, so the output is a fixed value. -/
theorem C4_renumbering_example :
    to_string_new_ids id renumberExampleDoc =
      ("world\n\x7b\n\t\"id\" \"1\"\n\x7d\nworld\n\x7b\n\t\"id\" \"2\"\n\x7d\n" ++
       "solid\n\x7b\n\t\"id\" \"1\"\n\tside\n\t\x7b\n\t\t\"id\" \"1\"\n\t\x7d\n" ++
       "\tside\n\t\x7b\n\t\t\"id\" \"2\"\n\t\x7d\n\x7d\nsolid\n\x7b\n\t\"id\" \"2\"\n\x7d\n" ++
       "entity\n\x7b\n\t\"id\" \"1\"\n\x7d\nentity\n\x7b\n\t\"id\" \"2\"\n\tentity\n\t\x7b\n" ++
       "\t\t\"id\" \"3\"\n\t\x7d\n\x7d").data ∧
    IdState.dflt = ⟨0, 0, 0, 0⟩ := by
  constructor <;> rfl

/-- C1 (counterexample): on input whose final closing brace is missing at
end of input, the `block` parser and `parse` FAIL (the body loop breaks at
EOF with `has_ending_brace` false and the function returns the
`missing \x7d in block` error), contrary to the claimed leniency. -/
theorem C1_counterexample :
    blockStr "block\x7b\"k\" \"v\"" = none ∧
    parseStr "block\x7b\"k\" \"v\"" = none ∧
    (parse id capSimple "block\x7b\"k\" \"v\"".data).toOption = none := by
  exact ⟨rfl, rfl, rfl⟩

/-- The C5 counterexample input: a parseable document whose property value
contains a newline. -/
def newlineInput : String := "a\x7b\"k\" \"x\ny\"\x7d"

/-- C5 (counterexample): for the document parsed from `a\x7b"k" "x\ny"\x7d`
(a document value obtained from a successful parse), rendering, re-parsing
and re-rendering does NOT reproduce the first rendering: the `PadAdapter`
inserts a tab after the newline inside the value, the re-parse absorbs that
tab into the value, and the second rendering pads again. -/
theorem C5_counterexample :
    (parseStr newlineInput).map renderVmfStr =
      some "a\n\x7b\n\t\"k\" \"x\n\ty\"\n\x7d" ∧
    ((parseStr newlineInput).bind (fun d => parseStr (renderVmfStr d))).map renderVmfStr =
      some "a\n\x7b\n\t\"k\" \"x\n\t\ty\"\n\x7d" ∧
    ("a\n\x7b\n\t\"k\" \"x\n\t\ty\"\n\x7d" : String) ≠ "a\n\x7b\n\t\"k\" \"x\n\ty\"\n\x7d" := by
  refine ⟨rfl, rfl, ?_⟩
  decide

/-! ## Consumption bounds

On success every parser consumes part of its input (`NLe`: never grows;
`NLt`: strictly consumes).  These bounds justify that `nom`'s
infinite-loop protection in `many1` never triggers for `block`. -/

/-- A parser whose remaining input never grows. -/
def NLe (p : List Char → NRes E α) : Prop :=
  ∀ i i1 a, p i = .ok (i1, a) → i1.length ≤ i.length

/-- A parser that strictly consumes input on success. -/
def NLt (p : List Char → NRes E α) : Prop :=
  ∀ i i1 a, p i = .ok (i1, a) → i1.length < i.length

/-- Dropping a prefix never lengthens a list. -/
theorem length_dropWhile_le (p : Char → Bool) :
    ∀ l : List Char, (l.dropWhile p).length ≤ l.length := by
  intro l
  induction l with
  | nil => simp
  | cons c rest ih =>
    by_cases h : p c <;> simp [List.dropWhile, h] <;> omega

theorem nlt_charP {cap : ErrCap E} (c : Char) : NLt (charP cap c) := by
  intro i i1 a h
  cases i with
  | nil => simp [charP] at h
  | cons c' rest =>
    simp only [charP] at h
    split at h <;> simp_all

theorem nle_tagP {cap : ErrCap E} (t : List Char) : NLe (tagP cap t) := by
  intro i i1 a h
  simp only [tagP] at h
  split at h <;> simp_all
  simp [← h.1]

theorem nle_takeUntilQuote {cap : ErrCap E} : NLe (takeUntilQuote cap) := by
  intro i i1 a h
  simp only [takeUntilQuote] at h
  split at h <;> simp_all
  rw [← h.1]
  exact length_dropWhile_le _ i

theorem nle_multispace0 : NLe (multispace0 (E := E)) := by
  intro i i1 a h
  simp only [multispace0, Except.ok.injEq, Prod.mk.injEq] at h
  rw [← h.1]
  exact length_dropWhile_le _ i

theorem nle_multispace1 {cap : ErrCap E} : NLe (multispace1 cap) := by
  intro i i1 a h
  simp only [multispace1] at h
  split at h <;> simp_all
  rw [← h.1]
  exact length_dropWhile_le _ i

theorem nlt_alphanumeric1 {cap : ErrCap E} : NLt (alphanumeric1 cap) := by
  intro i i1 a h
  simp only [alphanumeric1] at h
  split at h <;> simp_all
  obtain ⟨h1, -⟩ := h
  cases i with
  | nil => simp_all
  | cons c rest =>
    rename_i heq
    by_cases hc : isAlnum c
    · rw [← h1]
      simp only [List.dropWhile_cons, hc, ite_true]
      have := length_dropWhile_le isAlnum rest
      simp only [List.length_cons]
      omega
    · simp [List.takeWhile_cons, hc] at heq

theorem nle_is_not_no_fail (arr : List Char) : NLe (is_not_no_fail (E := E) arr) := by
  intro i i1 a h
  simp only [is_not_no_fail, Except.ok.injEq, Prod.mk.injEq] at h
  rw [← h.1]
  exact length_dropWhile_le _ i

theorem nle_contextC {cap : ErrCap E} {p : List Char → NRes E α} (lbl : String)
    (hp : NLe p) : NLe (contextC cap lbl p) := by
  intro i i1 a h
  simp only [contextC] at h
  cases he : p i <;> rw [he] at h <;> simp_all
  exact hp i i1 a he

theorem nlt_contextC {cap : ErrCap E} {p : List Char → NRes E α} (lbl : String)
    (hp : NLt p) : NLt (contextC cap lbl p) := by
  intro i i1 a h
  simp only [contextC] at h
  cases he : p i <;> rw [he] at h <;> simp_all
  exact hp i i1 a he

theorem nle_altC {cap : ErrCap E} {p q : List Char → NRes E α}
    (hp : NLe p) (hq : NLe q) : NLe (altC cap p q) := by
  intro i i1 a h
  simp only [altC] at h
  cases he : p i <;> rw [he] at h
  · cases he2 : q i <;> rw [he2] at h <;> simp_all
    exact hq i i1 a he2
  · simp_all
    exact hp i i1 a he

theorem nlt_altC {cap : ErrCap E} {p q : List Char → NRes E α}
    (hp : NLt p) (hq : NLt q) : NLt (altC cap p q) := by
  intro i i1 a h
  simp only [altC] at h
  cases he : p i <;> rw [he] at h
  · cases he2 : q i <;> rw [he2] at h <;> simp_all
    exact hq i i1 a he2
  · simp_all
    exact hp i i1 a he

theorem nle_mapP {p : List Char → NRes E α} (f : α → β) (hp : NLe p) :
    NLe (mapP p f) := by
  intro i i1 a h
  simp only [mapP] at h
  cases he : p i with
  | error e =>
    rw [he] at h
    exact Except.noConfusion h
  | ok v =>
    obtain ⟨j, b⟩ := v
    rw [he] at h
    have h2 : (Except.ok (j, f b) : NRes E β) = .ok (i1, a) := h
    simp only [Except.ok.injEq, Prod.mk.injEq] at h2
    exact h2.1 ▸ hp i j b he

theorem nle_valueP {p : List Char → NRes E α} (v : β) (hp : NLe p) :
    NLe (valueP v p) := nle_mapP _ hp

theorem nlt_mapP {p : List Char → NRes E α} (f : α → β) (hp : NLt p) :
    NLt (mapP p f) := by
  intro i i1 a h
  simp only [mapP] at h
  cases he : p i with
  | error e =>
    rw [he] at h
    exact Except.noConfusion h
  | ok v =>
    obtain ⟨j, b⟩ := v
    rw [he] at h
    have h2 : (Except.ok (j, f b) : NRes E β) = .ok (i1, a) := h
    simp only [Except.ok.injEq, Prod.mk.injEq] at h2
    exact h2.1 ▸ hp i j b he

theorem nlt_valueP {p : List Char → NRes E α} (v : β) (hp : NLt p) :
    NLt (valueP v p) := nlt_mapP _ hp

theorem nle_pairP {p : List Char → NRes E α} {q : List Char → NRes E β}
    (hp : NLe p) (hq : NLe q) : NLe (pairP p q) := by
  intro i i1 a h
  simp only [pairP] at h
  cases he : p i with
  | error e => rw [he] at h; exact Except.noConfusion h
  | ok v =>
    obtain ⟨j, b⟩ := v
    rw [he] at h
    dsimp only at h
    cases he2 : q j with
    | error e =>
      rw [he2] at h
      exact Except.noConfusion h
    | ok w =>
      obtain ⟨j2, c⟩ := w
      rw [he2] at h
      have h2 : (Except.ok (j2, (b, c)) : NRes E (α × β)) = .ok (i1, a) := h
      simp only [Except.ok.injEq, Prod.mk.injEq] at h2
      calc i1.length = j2.length := by rw [h2.1]
        _ ≤ j.length := hq j j2 c he2
        _ ≤ i.length := hp i j b he

theorem nle_separatedPairP {p : List Char → NRes E α} {s : List Char → NRes E γ}
    {q : List Char → NRes E β} (hp : NLe p) (hs : NLe s) (hq : NLe q) :
    NLe (separatedPairP p s q) := by
  intro i i1 a h
  simp only [separatedPairP] at h
  cases he : p i with
  | error e => rw [he] at h; exact Except.noConfusion h
  | ok v =>
    obtain ⟨j, b⟩ := v
    rw [he] at h
    dsimp only at h
    cases he2 : s j with
    | error e => rw [he2] at h; exact Except.noConfusion h
    | ok w =>
      obtain ⟨j2, c⟩ := w
      rw [he2] at h
      dsimp only at h
      cases he3 : q j2 with
      | error e => rw [he3] at h; exact Except.noConfusion h
      | ok u =>
        obtain ⟨j3, d⟩ := u
        rw [he3] at h
        have h2 : (Except.ok (j3, (b, d)) : NRes E (α × β)) = .ok (i1, a) := h
        simp only [Except.ok.injEq, Prod.mk.injEq] at h2
        calc i1.length = j3.length := by rw [h2.1]
          _ ≤ j2.length := hq j2 j3 d he3
          _ ≤ j.length := hs j j2 c he2
          _ ≤ i.length := hp i j b he

theorem nle_terminatedP {p : List Char → NRes E α} {q : List Char → NRes E β}
    (hp : NLe p) (hq : NLe q) : NLe (terminatedP p q) := by
  intro i i1 a h
  simp only [terminatedP] at h
  cases he : p i with
  | error e => rw [he] at h; exact Except.noConfusion h
  | ok v =>
    obtain ⟨j, b⟩ := v
    rw [he] at h
    dsimp only at h
    cases he2 : q j with
    | error e => rw [he2] at h; exact Except.noConfusion h
    | ok w =>
      obtain ⟨j2, c⟩ := w
      rw [he2] at h
      have h2 : (Except.ok (j2, b) : NRes E α) = .ok (i1, a) := h
      simp only [Except.ok.injEq, Prod.mk.injEq] at h2
      calc i1.length = j2.length := by rw [h2.1]
        _ ≤ j.length := hq j j2 c he2
        _ ≤ i.length := hp i j b he

theorem nlt_terminatedP {p : List Char → NRes E α} {q : List Char → NRes E β}
    (hp : NLt p) (hq : NLe q) : NLt (terminatedP p q) := by
  intro i i1 a h
  simp only [terminatedP] at h
  cases he : p i with
  | error e => rw [he] at h; exact Except.noConfusion h
  | ok v =>
    obtain ⟨j, b⟩ := v
    rw [he] at h
    dsimp only at h
    cases he2 : q j with
    | error e => rw [he2] at h; exact Except.noConfusion h
    | ok w =>
      obtain ⟨j2, c⟩ := w
      rw [he2] at h
      have h2 : (Except.ok (j2, b) : NRes E α) = .ok (i1, a) := h
      simp only [Except.ok.injEq, Prod.mk.injEq] at h2
      calc i1.length = j2.length := by rw [h2.1]
        _ ≤ j.length := hq j j2 c he2
        _ < i.length := hp i j b he

theorem nle_recognizeP {p : List Char → NRes E α} (hp : NLe p) :
    NLe (recognizeP p) := by
  intro i i1 a h
  simp only [recognizeP] at h
  cases he : p i with
  | error e => rw [he] at h; exact Except.noConfusion h
  | ok v =>
    obtain ⟨j, b⟩ := v
    rw [he] at h
    have h2 : (Except.ok (j, i.take (i.length - j.length)) : NRes E (List Char)) =
        .ok (i1, a) := h
    simp only [Except.ok.injEq, Prod.mk.injEq] at h2
    exact h2.1 ▸ hp i j b he

theorem nlt_recognizeP {p : List Char → NRes E α} (hp : NLt p) :
    NLt (recognizeP p) := by
  intro i i1 a h
  simp only [recognizeP] at h
  cases he : p i with
  | error e => rw [he] at h; exact Except.noConfusion h
  | ok v =>
    obtain ⟨j, b⟩ := v
    rw [he] at h
    have h2 : (Except.ok (j, i.take (i.length - j.length)) : NRes E (List Char)) =
        .ok (i1, a) := h
    simp only [Except.ok.injEq, Prod.mk.injEq] at h2
    exact h2.1 ▸ hp i j b he

theorem nle_ignore_whitespace {p : List Char → NRes E α} (hp : NLe p) :
    NLe (ignore_whitespace p) := by
  intro i i1 a h
  simp only [ignore_whitespace, multispace0] at h
  cases he : p (i.dropWhile isWs) with
  | error e => rw [he] at h; exact Except.noConfusion h
  | ok v =>
    obtain ⟨j, b⟩ := v
    rw [he] at h
    have h2 : (Except.ok (j.dropWhile isWs, b) : NRes E α) = .ok (i1, a) := h
    simp only [Except.ok.injEq, Prod.mk.injEq] at h2
    calc i1.length = (j.dropWhile isWs).length := by rw [h2.1]
      _ ≤ j.length := length_dropWhile_le _ j
      _ ≤ (i.dropWhile isWs).length := hp _ j b he
      _ ≤ i.length := length_dropWhile_le _ i

theorem nlt_ignore_whitespace {p : List Char → NRes E α} (hp : NLt p) :
    NLt (ignore_whitespace p) := by
  intro i i1 a h
  simp only [ignore_whitespace, multispace0] at h
  cases he : p (i.dropWhile isWs) with
  | error e => rw [he] at h; exact Except.noConfusion h
  | ok v =>
    obtain ⟨j, b⟩ := v
    rw [he] at h
    have h2 : (Except.ok (j.dropWhile isWs, b) : NRes E α) = .ok (i1, a) := h
    simp only [Except.ok.injEq, Prod.mk.injEq] at h2
    calc i1.length = (j.dropWhile isWs).length := by rw [h2.1]
      _ ≤ j.length := length_dropWhile_le _ j
      _ < (i.dropWhile isWs).length := hp _ j b he
      _ ≤ i.length := length_dropWhile_le _ i

theorem nle_surrounded_by {p : List Char → NRes E α} {q : List Char → NRes E β}
    {r : List Char → NRes E γ} (hp : NLe p) (hq : NLe q) (hr : NLe r) :
    NLe (surrounded_by p q r) := by
  intro i i1 a h
  simp only [surrounded_by] at h
  cases he : p i with
  | error e => rw [he] at h; exact Except.noConfusion h
  | ok v =>
    obtain ⟨j, b⟩ := v
    rw [he] at h
    dsimp only at h
    cases he2 : q j with
    | error e => rw [he2] at h; exact Except.noConfusion h
    | ok w =>
      obtain ⟨j2, c⟩ := w
      rw [he2] at h
      dsimp only at h
      cases he3 : r j2 with
      | error e => rw [he3] at h; exact Except.noConfusion h
      | ok u =>
        obtain ⟨j3, d⟩ := u
        rw [he3] at h
        have h2 : (Except.ok (j3, c) : NRes E β) = .ok (i1, a) := h
        simp only [Except.ok.injEq, Prod.mk.injEq] at h2
        calc i1.length = j3.length := by rw [h2.1]
          _ ≤ j2.length := hr j2 j3 d he3
          _ ≤ j.length := hq j j2 c he2
          _ ≤ i.length := hp i j b he

theorem nle_manyCountGo {cap : ErrCap E} (k : NomKind)
    {p : List Char → NRes E α} (hp : NLe p) :
    ∀ fuel i cnt i1 n, manyCountGo cap k p fuel i cnt = .ok (i1, n) →
      i1.length ≤ i.length := by
  intro fuel
  induction fuel with
  | zero =>
    intro i cnt i1 n h
    simp only [manyCountGo] at h
    have h2 : (Except.ok (i, cnt) : NRes E Nat) = .ok (i1, n) := h
    simp only [Except.ok.injEq, Prod.mk.injEq] at h2
    exact le_of_eq (by rw [h2.1])
  | succ m ih =>
    intro i cnt i1 n h
    simp only [manyCountGo] at h
    cases he : p i with
    | error e =>
      rw [he] at h
      have h2 : (Except.ok (i, cnt) : NRes E Nat) = .ok (i1, n) := h
      simp only [Except.ok.injEq, Prod.mk.injEq] at h2
      exact le_of_eq (by rw [h2.1])
    | ok v =>
      obtain ⟨j, b⟩ := v
      rw [he] at h
      dsimp only at h
      by_cases hl : j.length = i.length
      · rw [if_pos hl] at h
        exact Except.noConfusion h
      · rw [if_neg hl] at h
        calc i1.length ≤ j.length := ih j (cnt+1) i1 n h
          _ ≤ i.length := hp i j b he

theorem nle_many0CountP {cap : ErrCap E} {p : List Char → NRes E α}
    (hp : NLe p) : NLe (many0CountP cap p) := by
  intro i i1 a h
  exact nle_manyCountGo _ hp _ i 0 i1 a h

theorem nlt_many1CountP {cap : ErrCap E} {p : List Char → NRes E α}
    (hp : NLe p) : NLt (many1CountP cap p) := by
  intro i i1 a h
  simp only [many1CountP] at h
  cases he : p i with
  | error e => rw [he] at h; exact Except.noConfusion h
  | ok v =>
    obtain ⟨j, b⟩ := v
    rw [he] at h
    dsimp only at h
    by_cases hl : j.length = i.length
    · rw [if_pos hl] at h
      exact Except.noConfusion h
    · rw [if_neg hl] at h
      have h1 : j.length ≤ i.length := hp i j b he
      have h2 : i1.length ≤ j.length := nle_manyCountGo _ hp _ j 1 i1 a h
      omega

theorem nle_string {cap : ErrCap E} : NLe (string cap) :=
  nle_contextC _ (nle_surrounded_by (fun i i1 a h => le_of_lt (nlt_charP '"' i i1 a h))
    nle_takeUntilQuote (fun i i1 a h => le_of_lt (nlt_charP '"' i i1 a h)))

theorem nlt_identifier {cap : ErrCap E} : NLt (identifier cap) :=
  nlt_contextC _ (nlt_recognizeP (nlt_many1CountP
    (nle_altC (fun i i1 a h => le_of_lt (nlt_alphanumeric1 i i1 a h)) (nle_tagP _))))

theorem nle_comment {cap : ErrCap E} : NLe (comment cap) :=
  nle_contextC _ (nle_valueP _ (nle_pairP (nle_tagP _) (nle_is_not_no_fail _)))

theorem nle_ignorable {cap : ErrCap E} : NLe (ignorable cap) :=
  nle_contextC _ (nle_altC nle_comment (nle_valueP _ nle_multispace1))

theorem nlt_open_brace {cap : ErrCap E} : NLt (open_brace cap) :=
  nlt_contextC _ (nlt_valueP _ (nlt_ignore_whitespace (nlt_charP lbraceC)))

theorem nle_property {cap : ErrCap E} {ofStr : List Char → S} :
    NLe (property ofStr cap) :=
  nle_contextC _ (nle_mapP _ (nle_ignore_whitespace
    (nle_separatedPairP nle_string nle_multispace0 nle_string)))

/-- On success, `block` strictly consumes input and `blockBody` never grows
it.  Consequently `many1`'s infinite-loop check never fires for `block`. -/
theorem block_blockBody_consume {cap : ErrCap E} {ofStr : List Char → S} :
    ∀ fuel,
      (∀ i i1 b, block ofStr cap fuel i = .ok (i1, b) → i1.length < i.length) ∧
      (∀ i nm ps bs i1 b, blockBody ofStr cap fuel i nm ps bs = .ok (i1, b) →
        i1.length ≤ i.length) := by
  intro fuel
  induction fuel with
  | zero => exact ⟨fun i i1 b h => by simp [block] at h,
      fun i nm ps bs i1 b h => by simp [blockBody] at h⟩
  | succ n ih =>
    constructor
    · intro i i1 b h
      simp only [block] at h
      cases h0 : many0CountP cap (ignorable cap) i with
      | error e => rw [h0] at h; exact Except.noConfusion h
      | ok v =>
        obtain ⟨j, cnt⟩ := v
        rw [h0] at h
        dsimp only at h
        cases h1 : terminatedP (ignore_whitespace (identifier cap)) (open_brace cap) j with
        | error e => rw [h1] at h; exact Except.noConfusion h
        | ok w =>
          obtain ⟨j2, nm⟩ := w
          rw [h1] at h
          dsimp only at h
          have hj : j.length ≤ i.length := nle_many0CountP nle_ignorable i j cnt h0
          have hj2 : j2.length < j.length :=
            nlt_terminatedP (nlt_ignore_whitespace nlt_identifier)
              (fun a a1 c hh => le_of_lt (nlt_open_brace a a1 c hh)) j j2 nm h1
          have hb : i1.length ≤ j2.length := ih.2 j2 nm [] [] i1 b h
          omega
    · intro i nm ps bs i1 b h
      simp only [blockBody] at h
      cases hp : property ofStr cap i with
      | ok v =>
        obtain ⟨j, p⟩ := v
        rw [hp] at h
        dsimp only at h
        have h1 : j.length ≤ i.length := nle_property i j p hp
        have h2 : i1.length ≤ j.length := ih.2 j nm (ps ++ [p]) bs i1 b h
        omega
      | error e =>
        rw [hp] at h
        dsimp only at h
        cases hb : block ofStr cap n i with
        | ok v =>
          obtain ⟨j, b2⟩ := v
          rw [hb] at h
          dsimp only at h
          have h1 : j.length < i.length := ih.1 i j b2 hb
          have h2 : i1.length ≤ j.length := ih.2 j nm ps (bs ++ [b2]) i1 b h
          omega
        | error e2 =>
          rw [hb] at h
          dsimp only at h
          cases hig : ignorable cap i with
          | ok v =>
            obtain ⟨j, u⟩ := v
            rw [hig] at h
            dsimp only at h
            have h1 : j.length ≤ i.length := nle_ignorable i j u hig
            have h2 : i1.length ≤ j.length := ih.2 j nm ps bs i1 b h
            omega
          | error e3 =>
            rw [hig] at h
            dsimp only at h
            cases hc : ignore_whitespace (charP cap rbraceC) i with
            | ok v =>
              obtain ⟨j, c⟩ := v
              rw [hc] at h
              dsimp only at h
              have h2 : (Except.ok (j, Block.mk (ofStr nm) ps bs) : NRes E (Block S)) =
                  .ok (i1, b) := h
              simp only [Except.ok.injEq, Prod.mk.injEq] at h2
              have hle : j.length ≤ i.length :=
                nle_ignore_whitespace (fun a a1 d hh => le_of_lt (nlt_charP rbraceC a a1 d hh))
                  i j c hc
              obtain ⟨h3, -⟩ := h2
              exact h3 ▸ hle
            | error e4 =>
              rw [hc] at h
              dsimp only at h
              split at h <;> exact Except.noConfusion h

/-- With a strictly consuming element parser, the `many1` loop always
terminates successfully (the infinite-loop check never fires). -/
theorem many1Go_ok (cap : ErrCap E) {p : List Char → NRes E α} (hp : NLt p) :
    ∀ fuel i acc, ∃ i2 l, many1Go cap p fuel i acc = .ok (i2, l) := by
  intro fuel
  induction fuel with
  | zero => intro i acc; exact ⟨i, acc, rfl⟩
  | succ n ih =>
    intro i acc
    simp only [many1Go]
    cases he : p i with
    | error e => exact ⟨i, acc, rfl⟩
    | ok v =>
      obtain ⟨j, b⟩ := v
      dsimp only
      have hl : ¬ j.length = i.length := Nat.ne_of_lt (hp i j b he)
      rw [if_neg hl]
      exact ih j (acc ++ [b])

/-- The `many1` loop only ever appends to its accumulator. -/
theorem many1Go_len (cap : ErrCap E) {p : List Char → NRes E α} :
    ∀ fuel i acc i2 l, many1Go cap p fuel i acc = .ok (i2, l) →
      acc.length ≤ l.length := by
  intro fuel
  induction fuel with
  | zero =>
    intro i acc i2 l h
    simp only [many1Go] at h
    have h2 : (Except.ok (i, acc) : NRes E (List α)) = .ok (i2, l) := h
    simp only [Except.ok.injEq, Prod.mk.injEq] at h2
    exact le_of_eq (by rw [h2.2])
  | succ n ih =>
    intro i acc i2 l h
    simp only [many1Go] at h
    cases he : p i with
    | error e =>
      rw [he] at h
      have h2 : (Except.ok (i, acc) : NRes E (List α)) = .ok (i2, l) := h
      simp only [Except.ok.injEq, Prod.mk.injEq] at h2
      exact le_of_eq (by rw [h2.2])
    | ok v =>
      obtain ⟨j, b⟩ := v
      rw [he] at h
      dsimp only at h
      by_cases hl : j.length = i.length
      · rw [if_pos hl] at h
        exact Except.noConfusion h
      · rw [if_neg hl] at h
        have := ih j (acc ++ [b]) i2 l h
        simp only [List.length_append, List.length_cons, List.length_nil] at this
        omega

/-- C8: the document parser requires one or more top-level blocks: `parse`
accepts exactly when the first `block` parse succeeds (failing on empty,
whitespace-only and comment-only input), and every parsed document holds at
least one top-level block. -/
theorem C8_one_or_more_blocks :
    (∀ s : List Char,
      (parseC s).toOption.isSome ↔
        (block id capUnit (s.length + 2) s).toOption.isSome) ∧
    (∀ s v, parseC s = .ok v → 1 ≤ v.inner.blocks.length) ∧
    parseStr "" = none ∧ parseStr "  \t\r\n " = none ∧
    parseStr "// comment only" = none := by
  refine ⟨?_, ?_, rfl, rfl, rfl⟩
  · intro s
    simp only [parseC, parse, vmf, mapP, many1P]
    cases hb : block id capUnit (s.length + 2) s with
    | error e => rfl
    | ok v =>
      obtain ⟨s1, b⟩ := v
      dsimp only
      have hstrict : NLt (block (S := List Char) id capUnit (s.length + 2)) :=
        fun i i1 b2 hh => (block_blockBody_consume (s.length + 2)).1 i i1 b2 hh
      obtain ⟨i2, l, hgo⟩ := many1Go_ok capUnit hstrict (s1.length + 1) s1 [b]
      rw [hgo]
      rfl
  · intro s v h
    simp only [parseC, parse, vmf, mapP, many1P] at h
    cases hb : block id capUnit (s.length + 2) s with
    | error e =>
      rw [hb] at h
      exact Except.noConfusion h
    | ok w =>
      obtain ⟨s1, b⟩ := w
      rw [hb] at h
      dsimp only at h
      cases hgo : many1Go capUnit (block id capUnit (s.length + 2)) (s1.length + 1) s1 [b] with
      | error e =>
        rw [hgo] at h
        exact Except.noConfusion h
      | ok u =>
        obtain ⟨i2, l⟩ := u
        rw [hgo] at h
        have h2 : (Except.ok (Vmf.new (id : List Char → List Char) l) :
            Except Unit (Vmf (List Char))) = .ok v := h
        simp only [Except.ok.injEq] at h2
        have hlen : 1 ≤ l.length := many1Go_len capUnit (s1.length + 1) s1 [b] i2 l hgo
        rw [← h2]
        simpa [Vmf.new] using hlen

/-- Witness for C8 on the concrete input `a\x7b\x7d`. -/
theorem C8_witness :
    1 ≤ (Vmf.new (S := List Char) id [Block.mk "a".data [] []]).inner.blocks.length :=
  C8_one_or_more_blocks.2.1 "a\x7b\x7d".data _ rfl

/-- C10: `parse` silently discards trailing text: whenever a prefix parses
as a block and the remainder does not begin another parseable block, `parse`
returns `Ok` with just the prefix blocks, giving no indication of the
unconsumed remainder (which `vmf` reports but `parse` drops).  Concretely,
`a\x7b\x7db` parses to a document with the single block `a`, leaving `b`
unconsumed. -/
theorem C10_trailing_garbage :
    (∀ (s s1 : List Char) (b : Block (List Char)),
      block id capUnit (s.length + 2) s = .ok (s1, b) →
      block id capUnit (s.length + 2) s1 = .error () →
      parseC s = .ok (Vmf.new id [b]) ∧
      vmf id capUnit (s.length + 2) s = .ok (s1, Vmf.new id [b])) ∧
    parseStr "a\x7b\x7db" = some ⟨Block.mk "root".data [] [Block.mk "a".data [] []]⟩ ∧
    vmf id capUnit ("a\x7b\x7db".data.length + 2) "a\x7b\x7db".data =
      .ok ("b".data, Vmf.new id [Block.mk "a".data [] []]) := by
  refine ⟨?_, rfl, rfl⟩
  intro s s1 b hb he
  have hgo : many1Go capUnit (block id capUnit (s.length + 2)) (s1.length + 1) s1 [b] =
      .ok (s1, [b]) := by
    simp only [many1Go]
    rw [he]
  constructor
  · simp only [parseC, parse, vmf, mapP, many1P, hb, hgo]
  · simp only [vmf, mapP, many1P, hb, hgo]

/-- Witness for C10 at the concrete input `a\x7b\x7db`. -/
theorem C10_witness :
    parseC "a\x7b\x7db".data =
      .ok (Vmf.new id [Block.mk "a".data [] []]) ∧
    vmf id capUnit ("a\x7b\x7db".data.length + 2) "a\x7b\x7db".data =
      .ok ("b".data, Vmf.new id [Block.mk "a".data [] []]) :=
  C10_trailing_garbage.1 "a\x7b\x7db".data "b".data (Block.mk "a".data [] []) rfl rfl

/-! ## Characterizations of the lexical parsers (unit-error instantiation)

These lemmas compute the lexical parsers symbolically on structured
inputs; they drive both the parser-output invariants and the round-trip
proof. -/

/-- Pushing `takeWhile` through an all-satisfying prefix. -/
theorem takeWhile_append_sat {p : Char → Bool} :
    ∀ {A : List Char} (B : List Char), (∀ c ∈ A, p c) →
      (A ++ B).takeWhile p = A ++ B.takeWhile p := by
  intro A
  induction A with
  | nil => intro B _; simp
  | cons c rest ih =>
    intro B h
    have hc : p c := h c (by simp)
    simp [List.takeWhile_cons, hc, ih B (fun d hd => h d (by simp [hd]))]

/-- Pushing `dropWhile` through an all-satisfying prefix. -/
theorem dropWhile_append_sat {p : Char → Bool} :
    ∀ {A : List Char} (B : List Char), (∀ c ∈ A, p c) →
      (A ++ B).dropWhile p = B.dropWhile p := by
  intro A
  induction A with
  | nil => intro B _; simp
  | cons c rest ih =>
    intro B h
    have hc : p c := h c (by simp)
    simp [List.dropWhile_cons, hc, ih B (fun d hd => h d (by simp [hd]))]

/-- The token parser inside `identifier` fails when the head is not an
identifier character (or input is empty). -/
theorem identTok_err :
    ∀ i : List Char, (∀ c, i.head? = some c → isIdentChar c = false) →
      altC capUnit (alphanumeric1 capUnit) (tagP capUnit ['_']) i = .error () := by
  intro i h
  cases i with
  | nil => rfl
  | cons c rest =>
    have hc : isIdentChar c = false := h c rfl
    simp only [isIdentChar, Bool.or_eq_false_iff] at hc
    obtain ⟨h1, h2⟩ := hc
    have h2' : ¬ c = '_' := by simpa using h2
    simp [altC, alphanumeric1, tagP, List.takeWhile_cons, h1, h2']

/-- The token parser consumes a maximal alphanumeric run. -/
theorem identTok_alnum (c : Char) (rest : List Char) (hc : isAlnum c = true) :
    altC capUnit (alphanumeric1 capUnit) (tagP capUnit ['_']) (c :: rest) =
      .ok (rest.dropWhile isAlnum, c :: rest.takeWhile isAlnum) := by
  simp [altC, alphanumeric1, List.takeWhile_cons, List.dropWhile_cons, hc]

/-- The token parser consumes a single underscore. -/
theorem identTok_underscore (rest : List Char) :
    altC capUnit (alphanumeric1 capUnit) (tagP capUnit ['_']) ('_' :: rest) =
      .ok (rest, ['_']) := by
  have h1 : isAlnum '_' = false := by decide
  simp [altC, alphanumeric1, tagP, List.takeWhile_cons, h1]

/-- Characters of an alphanumeric run are identifier characters. -/
theorem alnum_run_ident (l : List Char) :
    ∀ c ∈ l.takeWhile isAlnum, isIdentChar c = true := by
  intro c hc
  have := List.mem_takeWhile_imp hc
  simp [isIdentChar, this]

/-- The repetition loop inside `identifier` consumes exactly the maximal
identifier-character run, given enough fuel. -/
theorem identGo_spec (k : NomKind) :
    ∀ fuel i cnt, (i.takeWhile isIdentChar).length < fuel →
      ∃ n, manyCountGo capUnit k
          (altC capUnit (alphanumeric1 capUnit) (tagP capUnit ['_'])) fuel i cnt =
        .ok (i.dropWhile isIdentChar, n) := by
  intro fuel
  induction fuel with
  | zero => intro i cnt h; omega
  | succ m ih =>
    intro i cnt h
    cases i with
    | nil => exact ⟨cnt, by simp [manyCountGo, identTok_err]⟩
    | cons c rest =>
      by_cases hid : isIdentChar c = true
      · by_cases hal : isAlnum c = true
        · -- alphanumeric run
          have htok := identTok_alnum c rest hal
          have hrj : (c :: rest.takeWhile isAlnum) ++ rest.dropWhile isAlnum =
              c :: rest := by
            simp only [List.cons_append, List.takeWhile_append_dropWhile]
          have hrid : ∀ d ∈ (c :: rest.takeWhile isAlnum), isIdentChar d = true := by
            intro d hd
            rcases List.mem_cons.mp hd with h1 | h2
            · rw [h1]; exact hid
            · have := List.mem_takeWhile_imp h2
              simp [isIdentChar, this]
          have htake : (c :: rest).takeWhile isIdentChar =
              (c :: rest.takeWhile isAlnum) ++
                (rest.dropWhile isAlnum).takeWhile isIdentChar := by
            conv_lhs => rw [← hrj]
            exact takeWhile_append_sat _ hrid
          have hdrop : (c :: rest).dropWhile isIdentChar =
              (rest.dropWhile isAlnum).dropWhile isIdentChar := by
            conv_lhs => rw [← hrj]
            exact dropWhile_append_sat _ hrid
          have hjlen : (rest.dropWhile isAlnum).length < (c :: rest).length := by
            have := length_dropWhile_le isAlnum rest
            simp only [List.length_cons]
            omega
          have hfuel2 : ((rest.dropWhile isAlnum).takeWhile isIdentChar).length < m := by
            have hlen : ((c :: rest).takeWhile isIdentChar).length =
                (c :: rest.takeWhile isAlnum).length +
                  ((rest.dropWhile isAlnum).takeWhile isIdentChar).length := by
              rw [htake, List.length_append]
            simp only [List.length_cons] at hlen h
            omega
          obtain ⟨n, hn⟩ := ih (rest.dropWhile isAlnum) (cnt + 1) hfuel2
          refine ⟨n, ?_⟩
          simp only [manyCountGo, htok]
          have hne : ¬ (rest.dropWhile isAlnum).length = (c :: rest).length :=
            Nat.ne_of_lt hjlen
          rw [if_neg hne, hn, hdrop]
        · -- underscore
          have hc : c = '_' := by
            simp only [isIdentChar, Bool.or_eq_true] at hid
            rcases hid with h1 | h2
            · exact absurd h1 hal
            · simpa using h2
          subst hc
          have htok := identTok_underscore rest
          have htake : ('_' :: rest).takeWhile isIdentChar =
              '_' :: rest.takeWhile isIdentChar := by
            simp [List.takeWhile_cons, isIdentChar]
          have hdrop : ('_' :: rest).dropWhile isIdentChar =
              rest.dropWhile isIdentChar := by
            simp [List.dropWhile_cons, isIdentChar]
          have hfuel2 : (rest.takeWhile isIdentChar).length < m := by
            rw [htake] at h
            simp only [List.length_cons] at h
            omega
          obtain ⟨n, hn⟩ := ih rest (cnt + 1) hfuel2
          refine ⟨n, ?_⟩
          simp only [manyCountGo, htok]
          have hne : ¬ rest.length = ('_' :: rest).length := by simp
          rw [if_neg hne, hn, hdrop]
      · -- head not an identifier character: loop stops immediately
        have htok := identTok_err (c :: rest) (by intro d hd; cases hd; simpa using hid)
        refine ⟨cnt, ?_⟩
        simp only [manyCountGo, htok]
        have : (c :: rest).dropWhile isIdentChar = c :: rest := by
          simp [List.dropWhile_cons, hid]
        rw [this]

/-- A maximal satisfying run is no longer than the list. -/
theorem length_takeWhile_le (p : Char → Bool) (l : List Char) :
    (l.takeWhile p).length ≤ l.length := by
  have h2 : (l.takeWhile p).length + (l.dropWhile p).length = l.length := by
    rw [← List.length_append, List.takeWhile_append_dropWhile]
  omega

/-- Taking the consumed prefix recovers the maximal satisfying run. -/
theorem take_sub_dropWhile (p : Char → Bool) (i : List Char) :
    i.take (i.length - (i.dropWhile p).length) = i.takeWhile p := by
  have h2 : (i.takeWhile p).length + (i.dropWhile p).length = i.length := by
    rw [← List.length_append, List.takeWhile_append_dropWhile]
  have hlen : i.length - (i.dropWhile p).length = (i.takeWhile p).length := by omega
  rw [hlen]
  have h3 := List.take_left (i.takeWhile p) (i.dropWhile p)
  rw [List.takeWhile_append_dropWhile] at h3
  exact h3

/-- Characterization of `identifier` (unit errors): it fails exactly when no
identifier character leads the input, and otherwise consumes the maximal
identifier-character run. -/
theorem identifier_spec (i : List Char) :
    (i.takeWhile isIdentChar = [] → identifier capUnit i = .error ()) ∧
    (i.takeWhile isIdentChar ≠ [] →
      identifier capUnit i = .ok (i.dropWhile isIdentChar, i.takeWhile isIdentChar)) := by
  constructor
  · intro hne
    have hhead : ∀ c, i.head? = some c → isIdentChar c = false := by
      intro c hc
      cases i with
      | nil => simp at hc
      | cons c0 rest =>
        simp only [List.head?_cons, Option.some.injEq] at hc
        subst hc
        by_contra hcc
        simp only [Bool.not_eq_false] at hcc
        simp [List.takeWhile_cons, hcc] at hne
    have htok := identTok_err i hhead
    simp [identifier, contextC, recognizeP, many1CountP, htok]
  · intro hne
    cases i with
    | nil => simp at hne
    | cons c rest =>
      have hid : isIdentChar c = true := by
        by_contra hcc
        simp only [Bool.not_eq_true] at hcc
        simp [List.takeWhile_cons, hcc] at hne
      have hres : ∃ n,
          many1CountP capUnit (altC capUnit (alphanumeric1 capUnit) (tagP capUnit ['_']))
            (c :: rest) = .ok ((c :: rest).dropWhile isIdentChar, n) := by
        by_cases hal : isAlnum c = true
        · have htok := identTok_alnum c rest hal
          have hrj : (c :: rest.takeWhile isAlnum) ++ rest.dropWhile isAlnum =
              c :: rest := by
            simp only [List.cons_append, List.takeWhile_append_dropWhile]
          have hrid : ∀ d ∈ (c :: rest.takeWhile isAlnum), isIdentChar d = true := by
            intro d hd
            rcases List.mem_cons.mp hd with h1 | h2
            · rw [h1]; exact hid
            · have := List.mem_takeWhile_imp h2
              simp [isIdentChar, this]
          have hdrop : (c :: rest).dropWhile isIdentChar =
              (rest.dropWhile isAlnum).dropWhile isIdentChar := by
            conv_lhs => rw [← hrj]
            exact dropWhile_append_sat _ hrid
          have hjlen : (rest.dropWhile isAlnum).length < (c :: rest).length := by
            have := length_dropWhile_le isAlnum rest
            simp only [List.length_cons]
            omega
          have hfuel : ((rest.dropWhile isAlnum).takeWhile isIdentChar).length <
              (rest.dropWhile isAlnum).length + 1 := by
            have := length_takeWhile_le isIdentChar (rest.dropWhile isAlnum)
            omega
          obtain ⟨n, hn⟩ := identGo_spec .many1Count
            ((rest.dropWhile isAlnum).length + 1) (rest.dropWhile isAlnum) 1 hfuel
          refine ⟨n, ?_⟩
          simp only [many1CountP, htok]
          have hne2 : ¬ (rest.dropWhile isAlnum).length = (c :: rest).length :=
            Nat.ne_of_lt hjlen
          rw [if_neg hne2, hn, hdrop]
        · have hc : c = '_' := by
            simp only [isIdentChar, Bool.or_eq_true] at hid
            rcases hid with h1 | h2
            · exact absurd h1 hal
            · simpa using h2
          subst hc
          have htok := identTok_underscore rest
          have hdrop : ('_' :: rest).dropWhile isIdentChar =
              rest.dropWhile isIdentChar := by
            simp [List.dropWhile_cons, isIdentChar]
          have hfuel : (rest.takeWhile isIdentChar).length < rest.length + 1 := by
            have := length_takeWhile_le isIdentChar rest
            omega
          obtain ⟨n, hn⟩ := identGo_spec .many1Count (rest.length + 1) rest 1 hfuel
          refine ⟨n, ?_⟩
          simp only [many1CountP, htok]
          have hne2 : ¬ rest.length = ('_' :: rest).length := by simp
          rw [if_neg hne2, hn, hdrop]
      obtain ⟨n, hn⟩ := hres
      simp only [identifier, contextC, recognizeP, hn]
      rw [take_sub_dropWhile]

/-- The `string` parser on a well-formed quoted literal: consumes
`"content"` and returns the content (no escape processing). -/
theorem string_on (content rest : List Char) (h : ∀ c ∈ content, ¬ c = '"') :
    string capUnit ('"' :: (content ++ '"' :: rest)) = .ok (rest, content) := by
  have hsat : ∀ c ∈ content, (fun c => !(c = '"')) c = true := by
    intro c hc
    simpa using h c hc
  have hdrop : (content ++ '"' :: rest).dropWhile (fun c => !(c = '"')) =
      '"' :: rest := by
    rw [dropWhile_append_sat _ hsat]
    simp [List.dropWhile_cons]
  have htake : (content ++ '"' :: rest).takeWhile (fun c => !(c = '"')) = content := by
    rw [takeWhile_append_sat _ hsat]
    simp [List.takeWhile_cons]
  simp [string, contextC, surrounded_by, charP, takeUntilQuote, hdrop, htake]

/-- The `string` parser fails when the input does not start with a quote. -/
theorem string_err_head (i : List Char)
    (h : ∀ c, i.head? = some c → ¬ c = '"') : string capUnit i = .error () := by
  cases i with
  | nil => rfl
  | cons c rest =>
    have hc : ¬ c = '"' := h c rfl
    simp [string, contextC, surrounded_by, charP, hc]

/-- On success, the content returned by `string` never contains a quote. -/
theorem string_ok_shape (i i1 v : List Char) (h : string capUnit i = .ok (i1, v)) :
    ∀ c ∈ v, ¬ c = '"' := by
  cases i with
  | nil => exact absurd h (by simp [string, contextC, surrounded_by, charP])
  | cons c rest =>
    by_cases hc : c = '"'
    · subst hc
      have hch : charP capUnit '"' ('"' :: rest) = .ok (rest, '"') := by simp [charP]
      cases hd : rest.dropWhile (fun c => !(c = '"')) with
      | nil =>
        have htu : takeUntilQuote capUnit rest = .error () := by
          simp [takeUntilQuote, hd]
        simp [string, contextC, surrounded_by, hch, htu] at h
      | cons c2 rest2 =>
        have htu : takeUntilQuote capUnit rest =
            .ok (c2 :: rest2, rest.takeWhile (fun c => !(c = '"'))) := by
          simp [takeUntilQuote, hd]
        by_cases hc2 : c2 = '"'
        · subst hc2
          have hch2 : charP capUnit '"' ('"' :: rest2) = .ok (rest2, '"') := by
            simp [charP]
          have hfin : string capUnit ('"' :: rest) =
              .ok (rest2, rest.takeWhile (fun c => !(c = '"'))) := by
            simp [string, contextC, surrounded_by, hch, htu, hch2]
          rw [hfin] at h
          simp only [Except.ok.injEq, Prod.mk.injEq] at h
          intro d hd2
          rw [← h.2] at hd2
          simpa using List.mem_takeWhile_imp hd2
        · have hch2 : charP capUnit '"' (c2 :: rest2) = .error () := by
            simp [charP, hc2]
          have hfin : string capUnit ('"' :: rest) = .error () := by
            simp [string, contextC, surrounded_by, hch, htu, hch2]
          rw [hfin] at h
          exact absurd h (by simp)
    · simp [string, contextC, surrounded_by, charP, hc] at h

/-- The `property` parser on a canonically rendered property: consumes
`"key" "value"` plus trailing whitespace. -/
theorem property_on (k v rest : List Char) (hk : ∀ c ∈ k, ¬ c = '"')
    (hv : ∀ c ∈ v, ¬ c = '"') :
    property (S := List Char) id capUnit
        ('"' :: (k ++ '"' :: ' ' :: '"' :: (v ++ '"' :: rest))) =
      .ok (rest.dropWhile isWs, ⟨k, v⟩) := by
  have h1 : string capUnit ('"' :: (k ++ '"' :: ' ' :: '"' :: (v ++ '"' :: rest))) =
      .ok (' ' :: '"' :: (v ++ '"' :: rest), k) := by
    have := string_on k (' ' :: '"' :: (v ++ '"' :: rest)) hk
    simpa using this
  have h2 : string capUnit ('"' :: (v ++ '"' :: rest)) = .ok (rest, v) :=
    string_on v rest hv
  have hq : isWs '"' = false := by decide
  have hsp : isWs ' ' = true := by decide
  simp [property, contextC, mapP, ignore_whitespace, separatedPairP, multispace0,
    List.dropWhile_cons, hq, hsp, h1, h2]

/-- The `property` parser fails when the first non-whitespace character is
not a quote (or the input is all whitespace). -/
theorem property_err_head (i : List Char)
    (h : ∀ c, (i.dropWhile isWs).head? = some c → ¬ c = '"') :
    property (S := List Char) id capUnit i = .error () := by
  have hs := string_err_head (i.dropWhile isWs) h
  simp [property, contextC, mapP, ignore_whitespace, separatedPairP, multispace0, hs]

/-- `ignorable` fails on a non-whitespace head that does not open a comment. -/
theorem ignorable_err (c : Char) (rest : List Char) (h1 : isWs c = false)
    (h2 : ¬ c = '/') : ignorable capUnit (c :: rest) = .error () := by
  simp [ignorable, contextC, altC, comment, valueP, mapP, pairP, tagP,
    multispace1, List.takeWhile_cons, h1, h2]

/-- Leading-ignorable skipping consumes nothing when the head is a
non-whitespace, non-comment character. -/
theorem many0_ignorable_none (c : Char) (rest : List Char) (h1 : isWs c = false)
    (h2 : ¬ c = '/') :
    many0CountP capUnit (ignorable capUnit) (c :: rest) = .ok (c :: rest, 0) := by
  simp [many0CountP, manyCountGo, ignorable_err c rest h1 h2]

/-- The close-brace step succeeds on a `\x7d` head, also consuming trailing
whitespace. -/
theorem close_brace_on (rest : List Char) :
    ignore_whitespace (charP capUnit rbraceC) (rbraceC :: rest) =
      .ok (rest.dropWhile isWs, rbraceC) := by
  have h1 : isWs rbraceC = false := by decide
  simp [ignore_whitespace, multispace0, charP, List.dropWhile_cons, h1]

/-- The close-brace step fails on a non-whitespace head other than `\x7d`. -/
theorem close_brace_err (c : Char) (rest : List Char) (h1 : isWs c = false)
    (h2 : ¬ c = rbraceC) :
    ignore_whitespace (charP capUnit rbraceC) (c :: rest) = .error () := by
  simp [ignore_whitespace, multispace0, charP, List.dropWhile_cons, h1, h2]

/-- `block` fails immediately on a non-whitespace, non-comment,
non-identifier head. -/
theorem block_err_at (c : Char) (rest : List Char) (h1 : isWs c = false)
    (h2 : ¬ c = '/') (h3 : isIdentChar c = false) :
    ∀ fuel, block (S := List Char) id capUnit fuel (c :: rest) = .error () := by
  intro fuel
  cases fuel with
  | zero => rfl
  | succ n =>
    have hm := many0_ignorable_none c rest h1 h2
    have hident : (c :: rest).takeWhile isIdentChar = [] := by
      simp [List.takeWhile_cons, h3]
    have hid := (identifier_spec (c :: rest)).1 hident
    have hdw : (c :: rest).dropWhile isWs = c :: rest := by
      simp [List.dropWhile_cons, h1]
    simp [block, hm, terminatedP, ignore_whitespace, multispace0, hdw, hid]

/-- `block` fails on empty input. -/
theorem block_err_nil : ∀ fuel, block (S := List Char) id capUnit fuel [] = .error () := by
  intro fuel
  cases fuel with
  | zero => rfl
  | succ n => rfl

/-! ## Invariants of parser output (C9) -/

/-- A valid block name: nonempty, only ASCII alphanumerics and underscore. -/
def identOk (cs : List Char) : Bool := !cs.isEmpty && cs.all isIdentChar

/-- Quote-free text (the only constraint `string` imposes on content). -/
def noQuote (cs : List Char) : Bool := cs.all (fun c => !(c = '"'))

/-- Well-formedness of a property produced by the parser. -/
def propWf (p : Property (List Char) (List Char)) : Bool :=
  noQuote p.key && noQuote p.value

mutual

/-- Well-formedness of a block produced by the parser: valid name,
quote-free property text, recursively well-formed children. -/
def blockWf : Block (List Char) → Bool
  | .mk name props blocks => identOk name && props.all propWf && blocksWf blocks

/-- Well-formedness of a list of blocks. -/
def blocksWf : List (Block (List Char)) → Bool
  | [] => true
  | b :: rest => blockWf b && blocksWf rest

end

theorem blocksWf_append (l1 l2 : List (Block (List Char))) :
    blocksWf (l1 ++ l2) = (blocksWf l1 && blocksWf l2) := by
  induction l1 with
  | nil => simp [blocksWf]
  | cons b rest ih => simp [blocksWf, ih, Bool.and_assoc]

theorem identifier_ok_shape (i2 j nm : List Char)
    (h : identifier capUnit i2 = .ok (j, nm)) : identOk nm = true := by
  by_cases hc : i2.takeWhile isIdentChar = []
  · rw [(identifier_spec i2).1 hc] at h
    exact Except.noConfusion h
  · rw [(identifier_spec i2).2 hc] at h
    simp only [Except.ok.injEq, Prod.mk.injEq] at h
    rw [← h.2]
    simp only [identOk, Bool.and_eq_true, List.all_eq_true]
    refine ⟨by simpa using hc, ?_⟩
    intro c hcmem
    exact List.mem_takeWhile_imp hcmem

theorem name_ok_shape (i i2 nm : List Char)
    (h : terminatedP (ignore_whitespace (identifier capUnit)) (open_brace capUnit) i =
      .ok (i2, nm)) : identOk nm = true := by
  simp only [terminatedP, ignore_whitespace, multispace0] at h
  cases he : identifier capUnit (i.dropWhile isWs) with
  | error e => rw [he] at h; exact Except.noConfusion h
  | ok v =>
    obtain ⟨j, nm2⟩ := v
    rw [he] at h
    dsimp only at h
    cases he2 : open_brace capUnit (j.dropWhile isWs) with
    | error e => rw [he2] at h; exact Except.noConfusion h
    | ok w =>
      obtain ⟨j2, u⟩ := w
      rw [he2] at h
      have h2 : (Except.ok (j2, nm2) : NRes Unit (List Char)) = .ok (i2, nm) := h
      simp only [Except.ok.injEq, Prod.mk.injEq] at h2
      rw [← h2.2]
      exact identifier_ok_shape _ _ _ he

theorem property_ok_shape (i i1 : List Char) (p : Property (List Char) (List Char))
    (h : property (S := List Char) id capUnit i = .ok (i1, p)) : propWf p = true := by
  simp only [property, contextC, mapP, ignore_whitespace, multispace0,
    separatedPairP] at h
  cases h1 : string capUnit (i.dropWhile isWs) with
  | error e => rw [h1] at h; exact Except.noConfusion h
  | ok v =>
    obtain ⟨j, k⟩ := v
    rw [h1] at h
    dsimp only at h
    cases h2 : string capUnit (j.dropWhile isWs) with
    | error e => rw [h2] at h; exact Except.noConfusion h
    | ok w =>
      obtain ⟨j2, vv⟩ := w
      rw [h2] at h
      have h3 : (Except.ok (j2.dropWhile isWs, (⟨k, vv⟩ : Property (List Char) (List Char))) :
          NRes Unit (Property (List Char) (List Char))) = .ok (i1, p) := h
      simp only [Except.ok.injEq, Prod.mk.injEq] at h3
      rw [← h3.2]
      have hk := string_ok_shape _ _ _ h1
      have hv := string_ok_shape _ _ _ h2
      simp only [propWf, noQuote, Bool.and_eq_true, List.all_eq_true]
      constructor
      · intro c hc
        simpa using hk c hc
      · intro c hc
        simpa using hv c hc

/-- Every block produced by the parser is well formed: nonempty
identifier-charactered name, quote-free property text, recursively. -/
theorem block_blockBody_wf : ∀ fuel,
    (∀ i i1 b, block (S := List Char) id capUnit fuel i = .ok (i1, b) →
      blockWf b = true) ∧
    (∀ i nm ps bs i1 b, blockBody (S := List Char) id capUnit fuel i nm ps bs = .ok (i1, b) →
      identOk nm = true → ps.all propWf = true → blocksWf bs = true →
      blockWf b = true) := by
  intro fuel
  induction fuel with
  | zero => exact ⟨fun i i1 b h => by simp [block] at h,
      fun i nm ps bs i1 b h => by simp [blockBody] at h⟩
  | succ n ih =>
    constructor
    · intro i i1 b h
      simp only [block] at h
      cases h0 : many0CountP capUnit (ignorable capUnit) i with
      | error e => rw [h0] at h; exact Except.noConfusion h
      | ok v =>
        obtain ⟨j, cnt⟩ := v
        rw [h0] at h
        dsimp only at h
        cases h1 : terminatedP (ignore_whitespace (identifier capUnit))
            (open_brace capUnit) j with
        | error e => rw [h1] at h; exact Except.noConfusion h
        | ok w =>
          obtain ⟨j2, nm⟩ := w
          rw [h1] at h
          dsimp only at h
          exact ih.2 j2 nm [] [] i1 b h (name_ok_shape j j2 nm h1) rfl rfl
    · intro i nm ps bs i1 b h hnm hps hbs
      simp only [blockBody] at h
      cases hp : property (S := List Char) id capUnit i with
      | ok v =>
        obtain ⟨j, p⟩ := v
        rw [hp] at h
        dsimp only at h
        refine ih.2 j nm (ps ++ [p]) bs i1 b h hnm ?_ hbs
        have := property_ok_shape i j p hp
        simp [List.all_append, hps, this]
      | error e =>
        rw [hp] at h
        dsimp only at h
        cases hb : block (S := List Char) id capUnit n i with
        | ok v =>
          obtain ⟨j, b2⟩ := v
          rw [hb] at h
          dsimp only at h
          refine ih.2 j nm ps (bs ++ [b2]) i1 b h hnm hps ?_
          have := ih.1 i j b2 hb
          simp [blocksWf_append, hbs, this, blocksWf]
        | error e2 =>
          rw [hb] at h
          dsimp only at h
          cases hig : ignorable capUnit i with
          | ok v =>
            obtain ⟨j, u⟩ := v
            rw [hig] at h
            dsimp only at h
            exact ih.2 j nm ps bs i1 b h hnm hps hbs
          | error e3 =>
            rw [hig] at h
            dsimp only at h
            cases hc : ignore_whitespace (charP capUnit rbraceC) i with
            | ok v =>
              obtain ⟨j, c⟩ := v
              rw [hc] at h
              dsimp only at h
              have h2 : (Except.ok (j, Block.mk (id nm) ps bs) :
                  NRes Unit (Block (List Char))) = .ok (i1, b) := h
              simp only [Except.ok.injEq, Prod.mk.injEq] at h2
              rw [← h2.2]
              simp [blockWf, hnm, hps, hbs]
            | error e4 =>
              rw [hc] at h
              dsimp only at h
              split at h <;> exact Except.noConfusion h

/-- Elements collected by the `many1` loop under an elementwise guarantee. -/
theorem many1Go_all {cap : ErrCap Unit} {p : List Char → NRes Unit (Block (List Char))}
    (q : Block (List Char) → Bool)
    (hp : ∀ j j1 b, p j = .ok (j1, b) → q b = true) :
    ∀ fuel i acc i2 l, many1Go cap p fuel i acc = .ok (i2, l) →
      (∀ b ∈ acc, q b = true) → ∀ b ∈ l, q b = true := by
  intro fuel
  induction fuel with
  | zero =>
    intro i acc i2 l h hacc
    simp only [many1Go] at h
    have h2 : (Except.ok (i, acc) : NRes Unit (List (Block (List Char)))) =
        .ok (i2, l) := h
    simp only [Except.ok.injEq, Prod.mk.injEq] at h2
    rw [← h2.2]
    exact hacc
  | succ n ih =>
    intro i acc i2 l h hacc
    simp only [many1Go] at h
    cases he : p i with
    | error e =>
      rw [he] at h
      have h2 : (Except.ok (i, acc) : NRes Unit (List (Block (List Char)))) =
          .ok (i2, l) := h
      simp only [Except.ok.injEq, Prod.mk.injEq] at h2
      rw [← h2.2]
      exact hacc
    | ok v =>
      obtain ⟨j, b⟩ := v
      rw [he] at h
      dsimp only at h
      by_cases hl : j.length = i.length
      · rw [if_pos hl] at h
        exact Except.noConfusion h
      · rw [if_neg hl] at h
        refine ih j (acc ++ [b]) i2 l h ?_
        intro b2 hb2
        rcases List.mem_append.mp hb2 with h1 | h1
        · exact hacc b2 h1
        · simp only [List.mem_singleton] at h1
          rw [h1]
          exact hp i j b he

theorem blocksWf_iff (l : List (Block (List Char))) :
    blocksWf l = true ↔ ∀ b ∈ l, blockWf b = true := by
  induction l with
  | nil => simp [blocksWf]
  | cons b rest ih => simp [blocksWf, ih]

/-- The root and name invariants of every successfully parsed document. -/
theorem parse_wf (s : List Char) (v : Vmf (List Char)) (h : parseC s = .ok v) :
    v.inner.name = "root".data ∧ v.inner.props = [] ∧
      blocksWf v.inner.blocks = true := by
  simp only [parseC, parse, vmf, mapP, many1P] at h
  cases hb : block (S := List Char) id capUnit (s.length + 2) s with
  | error e => rw [hb] at h; exact Except.noConfusion h
  | ok w =>
    obtain ⟨s1, b⟩ := w
    rw [hb] at h
    dsimp only at h
    cases hgo : many1Go capUnit (block id capUnit (s.length + 2)) (s1.length + 1) s1 [b] with
    | error e => rw [hgo] at h; exact Except.noConfusion h
    | ok u =>
      obtain ⟨i2, l⟩ := u
      rw [hgo] at h
      have h2 : (Except.ok (Vmf.new (id : List Char → List Char) l) :
          Except Unit (Vmf (List Char))) = .ok v := h
      simp only [Except.ok.injEq] at h2
      rw [← h2]
      refine ⟨rfl, rfl, ?_⟩
      have hall : ∀ b2 ∈ l, blockWf b2 = true := by
        refine many1Go_all blockWf
          (fun j j1 b2 hh => (block_blockBody_wf (s.length + 2)).1 j j1 b2 hh)
          (s1.length + 1) s1 [b] i2 l hgo ?_
        intro b2 hb2
        simp only [List.mem_singleton] at hb2
        rw [hb2]
        exact (block_blockBody_wf (s.length + 2)).1 s s1 b hb
      exact (blocksWf_iff l).mpr hall

/-- The canonical serializer prints only the children of the root. -/
theorem renderTop_eq_intercalate (toStr : S → List Char) :
    ∀ bs : List (Block S),
      renderTop toStr bs = List.intercalate ['\n'] (bs.map (renderBlock toStr))
  | [] => by simp [renderTop, List.intercalate]
  | [b] => by simp [renderTop, List.intercalate]
  | b :: b2 :: rest => by
    have ih := renderTop_eq_intercalate toStr (b2 :: rest)
    simp only [renderTop, List.map_cons]
    rw [ih]
    simp [List.intercalate, List.intersperse]

/-- C9: every successfully parsed document has the reserved root name
`root` with an empty property list, the canonical serializer emits only the
root's children (joined by single newlines, no root name or braces), and
every block in the tree has a nonempty name of ASCII alphanumerics and
underscores (with quote-free property text). -/
theorem C9_root_and_name_invariants :
    (∀ s v, parseC s = .ok v →
      v.inner.name = "root".data ∧ v.inner.props = [] ∧
        blocksWf v.inner.blocks = true) ∧
    (∀ v : Vmf (List Char),
      renderVmf id v = List.intercalate ['\n'] (v.inner.blocks.map (renderBlock id))) := by
  constructor
  · exact parse_wf
  · intro v
    exact renderTop_eq_intercalate id v.inner.blocks

/-- Witness for C9 on the concrete input `a\x7b\x7d`. -/
theorem C9_witness :
    (Vmf.new (id : List Char → List Char) [Block.mk "a".data [] []]).inner.name =
        "root".data ∧
      (Vmf.new (id : List Char → List Char) [Block.mk "a".data [] []]).inner.props = [] ∧
      blocksWf (Vmf.new (id : List Char → List Char)
        [Block.mk "a".data [] []]).inner.blocks = true :=
  C9_root_and_name_invariants.1 "a\x7b\x7d".data _ rfl

/-! ## Canonical-form line structure

The rendered text of a well-formed document decomposes into indented
lines; the `PadAdapter` transformation corresponds to shifting every line
by one tab.  This normal form drives the round-trip proof. -/

/-- A run of `k` tab characters. -/
def tabs : Nat → List Char
  | 0 => []
  | k+1 => '\t' :: tabs k

/-- Join lines, each terminated by a newline. -/
def unlines (ls : List (List Char)) : List Char :=
  ls.flatMap (fun l => l ++ ['\n'])

/-- Property lines at indentation `k`. -/
def propLinesAt (k : Nat) (props : List (Property (List Char) (List Char))) :
    List (List Char) :=
  props.map (fun p => tabs k ++ renderProp id p)

mutual

/-- The rendered lines of a block at indentation depth `k`. -/
def linesB (k : Nat) : Block (List Char) → List (List Char)
  | .mk name props blocks =>
    (tabs k ++ name) :: (tabs k ++ [lbraceC]) ::
      (propLinesAt (k+1) props ++ blocksLines (k+1) blocks ++ [tabs k ++ [rbraceC]])

/-- The rendered lines of a list of blocks at indentation depth `k`. -/
def blocksLines (k : Nat) : List (Block (List Char)) → List (List Char)
  | [] => []
  | b :: rest => linesB k b ++ blocksLines k rest

end

/-- The body item lines of a block at indentation depth `k`. -/
def itemLines (k : Nat) (props : List (Property (List Char) (List Char)))
    (blocks : List (Block (List Char))) : List (List Char) :=
  propLinesAt k props ++ blocksLines k blocks

/-- The rendered text of a block placed at depth `k`, as seen from the
start of its name (the caller's indentation of the first line excluded). -/
def blockText (k : Nat) (b : Block (List Char)) : List Char :=
  b.name ++ '\n' :: unlines ((tabs k ++ [lbraceC]) :: itemLines (k+1) b.props b.blocks)
    ++ tabs k ++ [rbraceC]

/-- The rendered text of the top-level block sequence. -/
def topText : List (Block (List Char)) → List Char
  | [] => []
  | [b] => blockText 0 b
  | b :: rest => blockText 0 b ++ '\n' :: topText rest

/-- Newline-free property text. -/
def noNlProp (p : Property (List Char) (List Char)) : Bool :=
  p.key.all (fun c => !(c = '\n')) && p.value.all (fun c => !(c = '\n'))

mutual

/-- Newline-free property text throughout a block. -/
def noNlB : Block (List Char) → Bool
  | .mk _ props blocks => props.all noNlProp && noNlList blocks

/-- Newline-free property text throughout a list of blocks. -/
def noNlList : List (Block (List Char)) → Bool
  | [] => true
  | b :: rest => noNlB b && noNlList rest

end

/-- Newline-free property text throughout a document. -/
def noNlVmf (v : Vmf (List Char)) : Bool :=
  v.inner.props.all noNlProp && noNlList v.inner.blocks

mutual

/-- Fuel needed by the `block` parser on `blockText`. -/
def needB : Block (List Char) → Nat
  | .mk _ props blocks => 1 + needItems props blocks

/-- Fuel needed by the body loop over remaining items. -/
def needItems : List (Property (List Char) (List Char)) →
    List (Block (List Char)) → Nat
  | _ :: ps, blocks => 1 + needItems ps blocks
  | [], c :: cs => 1 + needB c + needItems [] cs
  | [], [] => 1

end

theorem unlines_cons (x : List Char) (ls : List (List Char)) :
    unlines (x :: ls) = x ++ '\n' :: unlines ls := by
  simp [unlines]

theorem unlines_append (l1 l2 : List (List Char)) :
    unlines (l1 ++ l2) = unlines l1 ++ unlines l2 := by
  simp [unlines]

theorem unlines_ne_nil (x : List Char) (ls : List (List Char)) :
    unlines (x :: ls) ≠ [] := by
  cases x <;> simp [unlines_cons]

/-- `padB` passes newline-free text through unchanged. -/
theorem padB_nlfree_append (l : List Char) (h : ∀ c ∈ l, ¬ c = '\n')
    (R : List Char) : padB (l ++ R) = l ++ padB R := by
  induction l with
  | nil => simp
  | cons c rest ih =>
    have hc : ¬ c = '\n' := h c (by simp)
    simp only [List.cons_append, padB, if_neg hc]
    exact congrArg (fun t => c :: t) (ih (fun d hd => h d (by simp [hd])))

/-- `padB` inserts a tab after a newline followed by content. -/
theorem padB_nl_cons (R : List Char) (h : R ≠ []) :
    padB ('\n' :: R) = '\n' :: '\t' :: padB R := by
  cases R with
  | nil => exact absurd rfl h
  | cons c rest => simp [padB]

/-- `padB` after a final newline inserts nothing. -/
theorem padB_nl_nil : padB ['\n'] = ['\n'] := rfl

/-- Padding newline-terminated, newline-free lines is shifting each line by
one tab. -/
theorem padB_unlines_tab :
    ∀ ls : List (List Char), (∀ l ∈ ls, ∀ c ∈ l, ¬ c = '\n') → ls ≠ [] →
      '\t' :: padB (unlines ls) = unlines (ls.map (fun l => '\t' :: l)) := by
  intro ls
  induction ls with
  | nil => intro _ h; exact absurd rfl h
  | cons x rest ih =>
    intro h _
    have hx : ∀ c ∈ x, ¬ c = '\n' := h x (by simp)
    cases rest with
    | nil =>
      rw [unlines_cons]
      rw [show unlines ([] : List (List Char)) = [] from rfl]
      rw [padB_nlfree_append x hx]
      rw [List.map_cons, List.map_nil, unlines_cons]
      rw [show unlines ([] : List (List Char)) = [] from rfl]
      simp [padB]
    | cons y rest2 =>
      have hrest : ∀ l ∈ y :: rest2, ∀ c ∈ l, ¬ c = '\n' := by
        intro l hl
        exact h l (by simp [hl])
      have hne : unlines (y :: rest2) ≠ [] := unlines_ne_nil y rest2
      rw [unlines_cons, padB_nlfree_append x hx, padB_nl_cons _ hne]
      conv_rhs => rw [List.map_cons, unlines_cons]
      rw [← ih hrest (by simp)]
      simp

/-- `tabs` contains no newline. -/
theorem tabs_noNl (k : Nat) : ∀ c ∈ tabs k, ¬ c = '\n' := by
  induction k with
  | zero => simp [tabs]
  | succ n ih =>
    intro c hc
    rcases List.mem_cons.mp hc with h1 | h1
    · rw [h1]; decide
    · exact ih c h1

/-- Identifier characters are not newlines. -/
theorem identChar_not_nl (c : Char) (h : isIdentChar c = true) : ¬ c = '\n' := by
  intro hc
  rw [hc] at h
  exact absurd h (by decide)

/-- Identifier characters are not whitespace. -/
theorem identChar_not_ws (c : Char) (h : isIdentChar c = true) : isWs c = false := by
  by_contra hw
  simp only [Bool.not_eq_false] at hw
  have h2 := hw
  simp only [isWs, Bool.or_eq_true, decide_eq_true_eq] at h2
  rcases h2 with ((h2 | h2) | h2) | h2 <;> rw [h2] at h <;> exact absurd h (by decide)

/-- Identifier characters are not slashes, quotes or braces. -/
theorem identChar_not_special (c : Char) (h : isIdentChar c = true) :
    ¬ c = '/' ∧ ¬ c = '"' ∧ ¬ c = rbraceC := by
  refine ⟨?_, ?_, ?_⟩ <;> intro hc <;> rw [hc] at h <;> exact absurd h (by decide)

/-- A rendered property line is newline-free when its text is. -/
theorem renderProp_noNl (p : Property (List Char) (List Char))
    (h : noNlProp p = true) : ∀ c ∈ renderProp id p, ¬ c = '\n' := by
  simp only [noNlProp, Bool.and_eq_true] at h
  have hall : (renderProp id p).all (fun c => !(c = '\n')) = true := by
    simp [renderProp, List.all_cons, List.all_append, h.1, h.2]
  intro c hc
  have := List.all_eq_true.mp hall c hc
  simpa using this

mutual

/-- Lines of a well-formed, newline-free block contain no newline. -/
theorem linesB_noNl : ∀ (b : Block (List Char)) (k : Nat), blockWf b = true →
    noNlB b = true → ∀ l ∈ linesB k b, ∀ c ∈ l, ¬ c = '\n'
  | .mk name props blocks, k, hwf, hnl => by
    simp only [blockWf, Bool.and_eq_true] at hwf
    simp only [noNlB, Bool.and_eq_true] at hnl
    obtain ⟨⟨hname, hprops⟩, hblocks⟩ := hwf
    obtain ⟨hnlp, hnlb⟩ := hnl
    intro l hl
    simp only [linesB] at hl
    rcases List.mem_cons.mp hl with h1 | h1
    · intro c hc
      rw [h1] at hc
      rcases List.mem_append.mp hc with h2 | h2
      · exact tabs_noNl k c h2
      · have hid : isIdentChar c = true := by
          simp only [identOk, Bool.and_eq_true, List.all_eq_true] at hname
          exact hname.2 c h2
        exact identChar_not_nl c hid
    · rcases List.mem_cons.mp h1 with h2 | h2
      · intro c hc
        rw [h2] at hc
        rcases List.mem_append.mp hc with h3 | h3
        · exact tabs_noNl k c h3
        · simp only [List.mem_singleton] at h3
          rw [h3]; decide
      · rcases List.mem_append.mp h2 with h3 | h3
        · rcases List.mem_append.mp h3 with h4 | h4
          · simp only [propLinesAt, List.mem_map] at h4
            obtain ⟨p, hp, hpl⟩ := h4
            intro c hc
            rw [← hpl] at hc
            rcases List.mem_append.mp hc with h5 | h5
            · exact tabs_noNl (k+1) c h5
            · have hq : noNlProp p = true := by
                simp only [List.all_eq_true] at hnlp
                exact hnlp p hp
              exact renderProp_noNl p hq c h5
          · exact blocksLines_noNl blocks (k+1) hblocks hnlb l h4
        · simp only [List.mem_singleton] at h3
          intro c hc
          rw [h3] at hc
          rcases List.mem_append.mp hc with h4 | h4
          · exact tabs_noNl k c h4
          · simp only [List.mem_singleton] at h4
            rw [h4]; decide

/-- Lines of well-formed, newline-free block lists contain no newline. -/
theorem blocksLines_noNl : ∀ (bs : List (Block (List Char))) (k : Nat),
    blocksWf bs = true → noNlList bs = true →
    ∀ l ∈ blocksLines k bs, ∀ c ∈ l, ¬ c = '\n'
  | [], _, _, _ => by simp [blocksLines]
  | b :: rest, k, hwf, hnl => by
    simp only [blocksWf, Bool.and_eq_true] at hwf
    simp only [noNlList, Bool.and_eq_true] at hnl
    intro l hl
    simp only [blocksLines] at hl
    rcases List.mem_append.mp hl with h1 | h1
    · exact linesB_noNl b k hwf.1 hnl.1 l h1
    · exact blocksLines_noNl rest k hwf.2 hnl.2 l h1

end

/-- Prepending a tab to an indented line increases the depth. -/
theorem tab_cons_tabs (k : Nat) (x : List Char) :
    '\t' :: (tabs k ++ x) = tabs (k+1) ++ x := rfl

/-- Shifting property lines increases the depth. -/
theorem propLinesAt_shift (k : Nat) (props : List (Property (List Char) (List Char))) :
    (propLinesAt k props).map (fun l => '\t' :: l) = propLinesAt (k+1) props := by
  simp only [propLinesAt, List.map_map]
  rfl

mutual

/-- Shifting the lines of a block increases its depth. -/
theorem linesB_shift : ∀ (b : Block (List Char)) (k : Nat),
    (linesB k b).map (fun l => '\t' :: l) = linesB (k+1) b
  | .mk name props blocks, k => by
    simp only [linesB, List.map_cons, List.map_append, List.map_singleton,
      List.map_nil, tab_cons_tabs, propLinesAt_shift, blocksLines_shift blocks (k+1)]

/-- Shifting the lines of a block list increases the depth. -/
theorem blocksLines_shift : ∀ (bs : List (Block (List Char))) (k : Nat),
    (blocksLines k bs).map (fun l => '\t' :: l) = blocksLines (k+1) bs
  | [], _ => rfl
  | b :: rest, k => by
    simp only [blocksLines, List.map_append, linesB_shift b k,
      blocksLines_shift rest k]

end

/-- The lines of a block at depth `k` join to its indented text. -/
theorem unlines_linesB (k : Nat) (b : Block (List Char)) :
    unlines (linesB k b) = tabs k ++ blockText k b ++ ['\n'] := by
  obtain ⟨name, props, blocks⟩ := b
  simp only [linesB, blockText, itemLines, Block.name, Block.props, Block.blocks]
  rw [unlines_cons, unlines_cons, unlines_append, unlines_cons]
  rw [show unlines ([] : List (List Char)) = [] from rfl]
  simp [unlines_cons, List.append_assoc]

/-- `renderPropLines` is the joined property lines at depth 0. -/
theorem renderPropLines_eq_unlines (props : List (Property (List Char) (List Char))) :
    renderPropLines id props = unlines (propLinesAt 0 props) := by
  induction props with
  | nil => rfl
  | cons p rest ih =>
    simp only [renderPropLines, propLinesAt, List.map_cons, unlines_cons, ih]
    simp [tabs, propLinesAt]

mutual

/-- Under the well-formedness and newline-freedom invariants, the canonical
rendering of a block equals its line-structured text. -/
theorem renderBlock_eq_blockText : ∀ b : Block (List Char),
    blockWf b = true → noNlB b = true → renderBlock id b = blockText 0 b
  | .mk name props blocks, hwf, hnl => by
    simp only [blockWf, Bool.and_eq_true] at hwf
    simp only [noNlB, Bool.and_eq_true] at hnl
    obtain ⟨⟨hname, hprops⟩, hblocks⟩ := hwf
    obtain ⟨hnlp, hnlb⟩ := hnl
    have hc : renderChildLines id blocks = unlines (blocksLines 0 blocks) :=
      renderChildLines_eq_unlines blocks hblocks hnlb
    have hbody : renderPropLines id props ++ renderChildLines id blocks =
        unlines (itemLines 0 props blocks) := by
      rw [renderPropLines_eq_unlines, hc, itemLines, unlines_append]
    simp only [renderBlock, hbody]
    by_cases hempty : itemLines 0 props blocks = []
    · have hsplit := hempty
      simp only [itemLines, List.append_eq_nil] at hsplit
      obtain ⟨h1, h2⟩ := hsplit
      have hp0 : props = [] := by
        simpa [propLinesAt] using h1
      have hb0 : blocks = [] := by
        cases blocks with
        | nil => rfl
        | cons b2 rest =>
          obtain ⟨name2, props2, blocks2⟩ := b2
          simp [blocksLines, linesB] at h2
      subst hp0
      subst hb0
      rw [hempty]
      rw [show unlines ([] : List (List Char)) = [] from rfl]
      simp only [blockText, itemLines, Block.name, Block.props, Block.blocks]
      have hlb : ¬ lbraceC = '\n' := by decide
      simp [padB, unlines_cons, tabs, propLinesAt, blocksLines, unlines, hlb]
    · have hlines : ∀ l ∈ itemLines 0 props blocks, ∀ c ∈ l, ¬ c = '\n' := by
        intro l hl
        simp only [itemLines] at hl
        rcases List.mem_append.mp hl with h1 | h1
        · simp only [propLinesAt, List.mem_map] at h1
          obtain ⟨p, hp, hpl⟩ := h1
          intro c hcc
          rw [← hpl] at hcc
          simp only [tabs, List.nil_append] at hcc
          have hq : noNlProp p = true := by
            simp only [List.all_eq_true] at hnlp
            exact hnlp p hp
          exact renderProp_noNl p hq c hcc
        · exact blocksLines_noNl blocks 0 hblocks hnlb l h1
      have hne : unlines (itemLines 0 props blocks) ≠ [] := by
        cases hi : itemLines 0 props blocks with
        | nil => exact absurd hi hempty
        | cons x rest => exact unlines_ne_nil x rest
      have hpad : padB (lbraceC :: '\n' :: unlines (itemLines 0 props blocks)) =
          lbraceC :: '\n' :: unlines (itemLines 1 props blocks) := by
        have hlb : ¬ lbraceC = '\n' := by decide
        have h1 : padB (lbraceC :: '\n' :: unlines (itemLines 0 props blocks)) =
            lbraceC :: padB ('\n' :: unlines (itemLines 0 props blocks)) := by
          simp [padB, hlb]
        rw [h1, padB_nl_cons _ hne]
        have h2 := padB_unlines_tab (itemLines 0 props blocks) hlines hempty
        rw [h2]
        have h3 : (itemLines 0 props blocks).map (fun l => '\t' :: l) =
            itemLines 1 props blocks := by
          simp only [itemLines, List.map_append, propLinesAt_shift,
            blocksLines_shift]
        rw [h3]
      rw [hpad]
      simp only [blockText, itemLines, Block.name, Block.props, Block.blocks]
      simp [unlines_cons, tabs]

/-- Under the invariants, the rendered child lines equal the joined block
lines at depth 0. -/
theorem renderChildLines_eq_unlines : ∀ bs : List (Block (List Char)),
    blocksWf bs = true → noNlList bs = true →
    renderChildLines id bs = unlines (blocksLines 0 bs)
  | [], _, _ => rfl
  | b :: rest, hwf, hnl => by
    simp only [blocksWf, Bool.and_eq_true] at hwf
    simp only [noNlList, Bool.and_eq_true] at hnl
    have h1 := renderBlock_eq_blockText b hwf.1 hnl.1
    have h2 := renderChildLines_eq_unlines rest hwf.2 hnl.2
    simp only [renderChildLines, blocksLines, unlines_append, h1, h2,
      unlines_linesB 0 b]
    simp [tabs]

end

/-- Under the invariants, the top-level rendering equals the joined text. -/
theorem renderTop_eq_topText : ∀ bs : List (Block (List Char)),
    blocksWf bs = true → noNlList bs = true → renderTop id bs = topText bs
  | [], _, _ => rfl
  | [b], hwf, hnl => by
    have hw : blockWf b = true := by
      rw [show blocksWf [b] = (blockWf b && blocksWf []) from rfl] at hwf
      simp only [Bool.and_eq_true] at hwf
      exact hwf.1
    have hn : noNlB b = true := by
      rw [show noNlList [b] = (noNlB b && noNlList []) from rfl] at hnl
      simp only [Bool.and_eq_true] at hnl
      exact hnl.1
    simp only [renderTop, topText]
    exact renderBlock_eq_blockText b hw hn
  | b :: b2 :: rest, hwf, hnl => by
    rw [show blocksWf (b :: b2 :: rest) = (blockWf b && blocksWf (b2 :: rest))
      from rfl] at hwf
    rw [show noNlList (b :: b2 :: rest) = (noNlB b && noNlList (b2 :: rest))
      from rfl] at hnl
    simp only [Bool.and_eq_true] at hwf hnl
    have h1 := renderBlock_eq_blockText b hwf.1 hnl.1
    have h2 := renderTop_eq_topText (b2 :: rest) hwf.2 hnl.2
    simp only [renderTop, topText, h1, h2]

theorem tabs_ws (k : Nat) : ∀ c ∈ tabs k, isWs c = true := by
  induction k with
  | zero => simp [tabs]
  | succ n ih =>
    intro c hc
    rcases List.mem_cons.mp hc with h1 | h1
    · rw [h1]; decide
    · exact ih c h1

theorem dropWhile_ws_tabs (k : Nat) (X : List Char) :
    (tabs k ++ X).dropWhile isWs = X.dropWhile isWs :=
  dropWhile_append_sat X (tabs_ws k)

/-- The open-brace step on a brace head, consuming trailing whitespace. -/
theorem open_brace_on (X : List Char) :
    open_brace capUnit (lbraceC :: X) = .ok (X.dropWhile isWs, ()) := by
  have h1 : isWs lbraceC = false := by decide
  simp [open_brace, contextC, valueP, mapP, ignore_whitespace, multispace0,
    charP, List.dropWhile_cons, h1]

/-- The name-and-open-brace step of `block` on rendered block text. -/
theorem name_parse (name : List Char) (k : Nat) (X : List Char)
    (h : identOk name = true) :
    terminatedP (ignore_whitespace (identifier capUnit)) (open_brace capUnit)
        (name ++ '\n' :: (tabs k ++ lbraceC :: X)) =
      .ok (X.dropWhile isWs, name) := by
  simp only [identOk, Bool.and_eq_true, List.all_eq_true] at h
  obtain ⟨hne, hall⟩ := h
  cases name with
  | nil => simp at hne
  | cons c0 name2 =>
  have hc0 : isIdentChar c0 = true := hall c0 (by simp)
  have hws0 : isWs c0 = false := identChar_not_ws c0 hc0
  have hnl : isIdentChar '\n' = false := by decide
  have htake : ((c0 :: name2) ++ '\n' :: (tabs k ++ lbraceC :: X)).takeWhile
      isIdentChar = c0 :: name2 := by
    rw [takeWhile_append_sat _ hall]
    simp [List.takeWhile_cons, hnl]
  have hdrop : ((c0 :: name2) ++ '\n' :: (tabs k ++ lbraceC :: X)).dropWhile
      isIdentChar = '\n' :: (tabs k ++ lbraceC :: X) := by
    rw [dropWhile_append_sat _ hall]
    simp [List.dropWhile_cons, hnl]
  have hid := (identifier_spec ((c0 :: name2) ++ '\n' :: (tabs k ++ lbraceC :: X))).2
    (by rw [htake]; simp)
  rw [htake, hdrop] at hid
  have hdw1 : ((c0 :: name2) ++ '\n' :: (tabs k ++ lbraceC :: X)).dropWhile isWs =
      (c0 :: name2) ++ '\n' :: (tabs k ++ lbraceC :: X) := by
    simp [List.dropWhile_cons, hws0]
  have hdw2 : ('\n' :: (tabs k ++ lbraceC :: X)).dropWhile isWs = lbraceC :: X := by
    have hlb : isWs lbraceC = false := by decide
    simp only [List.dropWhile_cons]
    rw [if_pos (by decide)]
    rw [dropWhile_ws_tabs]
    simp [List.dropWhile_cons, hlb]
  simp only [terminatedP, ignore_whitespace, multispace0, hdw1, hid]
  rw [hdw2]
  rw [open_brace_on X]

/-- Facts about the closing brace character. -/
theorem rbrace_facts :
    isWs rbraceC = false ∧ ¬ rbraceC = '/' ∧ isIdentChar rbraceC = false ∧
      ¬ rbraceC = '"' := by
  refine ⟨by decide, by decide, by decide, by decide⟩

/-- `property` fails at a non-whitespace, non-quote head. -/
theorem property_err_at (c : Char) (X : List Char) (h1 : isWs c = false)
    (h2 : ¬ c = '"') : property (S := List Char) id capUnit (c :: X) = .error () := by
  apply property_err_head
  intro d hd
  have hdw : (c :: X).dropWhile isWs = c :: X := by
    simp [List.dropWhile_cons, h1]
  rw [hdw] at hd
  simp only [List.head?_cons, Option.some.injEq] at hd
  rw [← hd]
  exact h2

/-- The first character of a well-formed block's text is an identifier
character. -/
theorem blockText_head (c : Block (List Char)) (k : Nat) (hwf : blockWf c = true) :
    ∃ d0 t, blockText k c = d0 :: t ∧ isIdentChar d0 = true := by
  obtain ⟨name, props, blocks⟩ := c
  simp only [blockWf, Bool.and_eq_true] at hwf
  obtain ⟨⟨hname, -⟩, -⟩ := hwf
  simp only [identOk, Bool.and_eq_true, List.all_eq_true] at hname
  obtain ⟨hne, hall⟩ := hname
  cases name with
  | nil => simp at hne
  | cons d0 t0 =>
    exact ⟨d0, t0 ++ '\n' :: unlines ((tabs k ++ [lbraceC]) ::
      itemLines (k+1) props blocks) ++ tabs k ++ [rbraceC],
      by simp [blockText, Block.name, Block.props, Block.blocks], hall d0 (by simp)⟩

mutual

/-- On the rendered text of a well-formed block (followed by anything),
`block` succeeds and reconstructs exactly that block, consuming the block
text plus trailing whitespace. -/
theorem blockText_parse : ∀ (b : Block (List Char)) (k : Nat) (rest : List Char)
    (fuel : Nat), blockWf b = true → needB b ≤ fuel →
    block (S := List Char) id capUnit fuel (blockText k b ++ rest) =
      .ok (rest.dropWhile isWs, b)
  | .mk name props blocks, k, rest, fuel, hwf, hfuel => by
    simp only [blockWf, Bool.and_eq_true] at hwf
    obtain ⟨⟨hname, hprops⟩, hblocks⟩ := hwf
    cases fuel with
    | zero => simp [needB] at hfuel
    | succ m =>
      have hm : needItems props blocks ≤ m := by
        simp only [needB] at hfuel
        omega
      have hin : blockText k (.mk name props blocks) ++ rest =
          name ++ '\n' :: (tabs k ++ lbraceC ::
            ('\n' :: (unlines (itemLines (k+1) props blocks) ++
              (tabs k ++ rbraceC :: rest)))) := by
        simp [blockText, unlines_cons, Block.name, Block.props, Block.blocks,
          List.append_assoc]
      have hnm := hname
      simp only [identOk, Bool.and_eq_true, List.all_eq_true] at hnm
      obtain ⟨hne, hall⟩ := hnm
      cases name with
      | nil => simp at hne
      | cons c0 name2 =>
      have hc0 : isIdentChar c0 = true := hall c0 (by simp)
      have hm0 : many0CountP capUnit (ignorable capUnit)
          ((c0 :: name2) ++ '\n' :: (tabs k ++ lbraceC ::
            ('\n' :: (unlines (itemLines (k+1) props blocks) ++
              (tabs k ++ rbraceC :: rest))))) =
          .ok ((c0 :: name2) ++ '\n' :: (tabs k ++ lbraceC ::
            ('\n' :: (unlines (itemLines (k+1) props blocks) ++
              (tabs k ++ rbraceC :: rest)))), 0) := by
        rw [List.cons_append]
        exact many0_ignorable_none c0 _ (identChar_not_ws c0 hc0)
          (identChar_not_special c0 hc0).1
      have hnp := name_parse (c0 :: name2) k
        ('\n' :: (unlines (itemLines (k+1) props blocks) ++
          (tabs k ++ rbraceC :: rest))) hname
      have hx : (('\n' : Char) :: (unlines (itemLines (k+1) props blocks) ++
          (tabs k ++ rbraceC :: rest))).dropWhile isWs =
          (unlines (itemLines (k+1) props blocks) ++
            (tabs k ++ rbraceC :: rest)).dropWhile isWs := by
        simp [List.dropWhile_cons, show isWs (Char.ofNat 10) = true from by decide]
      rw [hx] at hnp
      rw [hin]
      simp only [block, hm0, hnp]
      have hb := bodyText_parse props blocks k rest m (c0 :: name2) [] []
        hprops hblocks hm
      simpa using hb
termination_by b k r f h1 h2 => sizeOf b

/-- The body loop on the rendered item lines: collects exactly the given
properties and children, then the closing brace. -/
theorem bodyText_parse : ∀ (props : List (Property (List Char) (List Char)))
    (blocks : List (Block (List Char))) (k : Nat) (rest : List Char) (fuel : Nat)
    (nm : List Char) (accp : List (Property (List Char) (List Char)))
    (accb : List (Block (List Char))),
    props.all propWf = true → blocksWf blocks = true →
    needItems props blocks ≤ fuel →
    blockBody (S := List Char) id capUnit fuel
        ((unlines (itemLines (k+1) props blocks) ++
          (tabs k ++ rbraceC :: rest)).dropWhile isWs) nm accp accb =
      .ok (rest.dropWhile isWs, .mk nm (accp ++ props) (accb ++ blocks))
  | p :: ps, blocks, k, rest, fuel, nm, accp, accb, hprops, hblocks, hfuel => by
    cases fuel with
    | zero => simp [needItems] at hfuel
    | succ m =>
      have hm : needItems ps blocks ≤ m := by
        simp only [needItems] at hfuel
        omega
      have hp : propWf p = true ∧ ps.all propWf = true := by
        simpa using hprops
      have hkq : ∀ c ∈ p.key, ¬ c = '"' := by
        have := hp.1
        simp only [propWf, noQuote, Bool.and_eq_true, List.all_eq_true] at this
        intro c hc
        simpa using this.1 c hc
      have hvq : ∀ c ∈ p.value, ¬ c = '"' := by
        have := hp.1
        simp only [propWf, noQuote, Bool.and_eq_true, List.all_eq_true] at this
        intro c hc
        simpa using this.2 c hc
      have hitems : itemLines (k+1) (p :: ps) blocks =
          (tabs (k+1) ++ renderProp id p) :: itemLines (k+1) ps blocks := by
        simp [itemLines, propLinesAt]
      have hq : isWs '"' = false := by decide
      have hdw : ((unlines (itemLines (k+1) (p :: ps) blocks) ++
          (tabs k ++ rbraceC :: rest))).dropWhile isWs =
          renderProp id p ++ '\n' :: (unlines (itemLines (k+1) ps blocks) ++
            (tabs k ++ rbraceC :: rest)) := by
        rw [hitems, unlines_cons]
        simp only [List.append_assoc, List.cons_append]
        rw [dropWhile_ws_tabs]
        simp only [renderProp, id]
        simp [List.dropWhile_cons, hq, List.append_assoc]
      have hshape : renderProp id p ++ '\n' :: (unlines (itemLines (k+1) ps blocks) ++
          (tabs k ++ rbraceC :: rest)) =
          '"' :: (p.key ++ '"' :: ' ' :: '"' :: (p.value ++ '"' ::
            ('\n' :: (unlines (itemLines (k+1) ps blocks) ++
              (tabs k ++ rbraceC :: rest))))) := by
        simp [renderProp, List.append_assoc]
      have hpp := property_on p.key p.value
        ('\n' :: (unlines (itemLines (k+1) ps blocks) ++
          (tabs k ++ rbraceC :: rest))) hkq hvq
      have hdw2 : (('\n' : Char) :: (unlines (itemLines (k+1) ps blocks) ++
          (tabs k ++ rbraceC :: rest))).dropWhile isWs =
          (unlines (itemLines (k+1) ps blocks) ++
            (tabs k ++ rbraceC :: rest)).dropWhile isWs := by
        simp [List.dropWhile_cons, show isWs (Char.ofNat 10) = true from by decide]
      rw [hdw2] at hpp
      rw [hdw]
      simp only [blockBody, hshape, hpp]
      have hb := bodyText_parse ps blocks k rest m nm (accp ++ [p]) accb
        hp.2 hblocks hm
      simpa using hb
  | [], c :: cs, k, rest, fuel, nm, accp, accb, hprops, hblocks, hfuel => by
    cases fuel with
    | zero => simp [needItems] at hfuel
    | succ m =>
      have hwc : blockWf c = true ∧ blocksWf cs = true := by
        rw [show blocksWf (c :: cs) = (blockWf c && blocksWf cs) from rfl] at hblocks
        simpa using hblocks
      have hmc : needB c ≤ m ∧ needItems ([] : List (Property (List Char) (List Char))) cs ≤ m := by
        simp only [needItems] at hfuel
        omega
      have hitems : itemLines (k+1) ([] : List (Property (List Char) (List Char)))
          (c :: cs) = linesB (k+1) c ++ itemLines (k+1) [] cs := by
        simp [itemLines, propLinesAt, blocksLines]
      obtain ⟨d0, t0, hhead, hd0⟩ := blockText_head c (k+1) hwc.1
      have hdw : ((unlines (itemLines (k+1) ([] : List (Property (List Char) (List Char)))
          (c :: cs)) ++ (tabs k ++ rbraceC :: rest))).dropWhile isWs =
          blockText (k+1) c ++ ('\n' :: (unlines (itemLines (k+1) [] cs) ++
            (tabs k ++ rbraceC :: rest))) := by
        rw [hitems, unlines_append, unlines_linesB]
        simp only [List.append_assoc, List.cons_append]
        rw [dropWhile_ws_tabs]
        rw [hhead]
        simp [List.dropWhile_cons, identChar_not_ws d0 hd0, List.append_assoc]
      have hperr : property (S := List Char) id capUnit
          (blockText (k+1) c ++ ('\n' :: (unlines (itemLines (k+1) [] cs) ++
            (tabs k ++ rbraceC :: rest)))) = .error () := by
        rw [hhead]
        rw [List.cons_append]
        exact property_err_at d0 _ (identChar_not_ws d0 hd0)
          (identChar_not_special d0 hd0).2.1
      have hbk := blockText_parse c (k+1)
        ('\n' :: (unlines (itemLines (k+1) [] cs) ++ (tabs k ++ rbraceC :: rest)))
        m hwc.1 hmc.1
      have hdw2 : (('\n' : Char) :: (unlines (itemLines (k+1) [] cs) ++
          (tabs k ++ rbraceC :: rest))).dropWhile isWs =
          (unlines (itemLines (k+1) [] cs) ++
            (tabs k ++ rbraceC :: rest)).dropWhile isWs := by
        simp [List.dropWhile_cons, show isWs (Char.ofNat 10) = true from by decide]
      rw [hdw2] at hbk
      rw [hdw]
      simp only [blockBody, hperr, hbk]
      have hb := bodyText_parse [] cs k rest m nm accp (accb ++ [c])
        rfl hwc.2 hmc.2
      simpa using hb
  | [], [], k, rest, fuel, nm, accp, accb, hprops, hblocks, hfuel => by
    cases fuel with
    | zero => simp [needItems] at hfuel
    | succ m =>
      have hdw : ((unlines (itemLines (k+1) ([] : List (Property (List Char) (List Char)))
          ([] : List (Block (List Char)))) ++ (tabs k ++ rbraceC :: rest))).dropWhile isWs =
          rbraceC :: rest := by
        have h0 : itemLines (k+1) ([] : List (Property (List Char) (List Char)))
            ([] : List (Block (List Char))) = [] := by
          simp [itemLines, propLinesAt, blocksLines]
        rw [h0]
        rw [show unlines ([] : List (List Char)) = [] from rfl]
        rw [List.nil_append, dropWhile_ws_tabs]
        simp [List.dropWhile_cons, rbrace_facts.1]
      have hperr : property (S := List Char) id capUnit (rbraceC :: rest) =
          .error () :=
        property_err_at rbraceC rest rbrace_facts.1 rbrace_facts.2.2.2
      have hberr : block (S := List Char) id capUnit m (rbraceC :: rest) =
          .error () :=
        block_err_at rbraceC rest rbrace_facts.1 rbrace_facts.2.1
          rbrace_facts.2.2.1 m
      have higerr : ignorable capUnit (rbraceC :: rest) = .error () :=
        ignorable_err rbraceC rest rbrace_facts.1 rbrace_facts.2.1
      have hcb := close_brace_on rest
      rw [hdw]
      simp only [blockBody, hperr, hberr, higerr, hcb]
      simp
termination_by p b k r f n a1 a2 h1 h2 h3 => sizeOf p + sizeOf b
end

theorem tabs_length (k : Nat) : (tabs k).length = k := by
  induction k with
  | zero => rfl
  | succ n ih => simp [tabs, ih]

mutual

/-- The fuel needed by `block` on a block's text is at most the text's
length. -/
theorem needB_le : ∀ (b : Block (List Char)) (k : Nat),
    needB b ≤ (blockText k b).length
  | .mk n p bl, k => by
    have h := needItems_le p bl (k+1)
    simp only [needB, blockText, Block.name, Block.props, Block.blocks, unlines_cons]
    simp only [List.length_append, List.length_cons, tabs_length]
    omega
termination_by b k => sizeOf b

/-- The fuel needed by the body loop is at most the item text's length
plus one. -/
theorem needItems_le : ∀ (p : List (Property (List Char) (List Char)))
    (bl : List (Block (List Char))) (k : Nat),
    needItems p bl ≤ (unlines (itemLines k p bl)).length + 1
  | q :: ps, bl, k => by
    have ih := needItems_le ps bl k
    have hitems : itemLines k (q :: ps) bl =
        (tabs k ++ renderProp id q) :: itemLines k ps bl := by
      simp [itemLines, propLinesAt]
    rw [hitems, unlines_cons]
    simp only [needItems, List.length_append, List.length_cons, tabs_length]
    omega
  | [], c :: cs, k => by
    have ih := needItems_le [] cs k
    have hc := needB_le c k
    have hitems : itemLines k ([] : List (Property (List Char) (List Char)))
        (c :: cs) = linesB k c ++ itemLines k [] cs := by
      simp [itemLines, propLinesAt, blocksLines]
    rw [hitems, unlines_append, unlines_linesB]
    simp only [needItems, List.length_append, List.length_cons, tabs_length]
    omega
  | [], [], k => by
    simp [needItems, itemLines, propLinesAt, blocksLines, unlines]
termination_by p bl k => sizeOf p + sizeOf bl

end

/-- Every member block of a top-level sequence needs at most the sequence
text's length as fuel. -/
theorem needTop_le : ∀ (bs : List (Block (List Char))) (b : Block (List Char)),
    b ∈ bs → needB b ≤ (topText bs).length
  | x :: rest, b, hb => by
    rcases List.mem_cons.mp hb with heq | hmem
    · subst heq
      cases rest with
      | nil => exact needB_le b 0
      | cons r rs =>
        have h := needB_le b 0
        simp only [topText, List.length_append, List.length_cons]
        omega
    · have ih := needTop_le rest b hmem
      cases rest with
      | nil => cases hmem
      | cons r rs =>
        simp only [topText, List.length_append, List.length_cons]
        omega

/-- Leading whitespace stripping is a no-op on a well-formed nonempty
top-level text. -/
theorem dropWhile_topText (b : Block (List Char)) (rs : List (Block (List Char)))
    (h : blockWf b = true) :
    (topText (b :: rs)).dropWhile isWs = topText (b :: rs) := by
  obtain ⟨d0, t, hhead, hd0⟩ := blockText_head b 0 h
  cases rs with
  | nil =>
    rw [show topText [b] = blockText 0 b from rfl, hhead]
    simp [List.dropWhile_cons, identChar_not_ws d0 hd0]
  | cons r rs2 =>
    rw [show topText (b :: r :: rs2) = blockText 0 b ++ '\n' :: topText (r :: rs2)
      from rfl, hhead]
    simp [List.dropWhile_cons, identChar_not_ws d0 hd0]

/-- The `many1` loop consumes a well-formed top-level text completely,
appending exactly its blocks to the accumulator. -/
theorem many1Go_topText : ∀ (bs acc : List (Block (List Char))) (fuel gf : Nat),
    blocksWf bs = true → (∀ b ∈ bs, needB b ≤ fuel) →
    (topText bs).length < gf →
    many1Go capUnit (block id capUnit fuel) gf (topText bs) acc =
      .ok ([], acc ++ bs)
  | [], acc, fuel, gf, hwf, hfuel, hlen => by
    cases gf with
    | zero => simp [topText] at hlen
    | succ g =>
      rw [show topText [] = [] from rfl]
      simp [many1Go, block_err_nil fuel]
  | b :: rest, acc, fuel, gf, hwf, hfuel, hlen => by
    cases gf with
    | zero => exact absurd hlen (by omega)
    | succ g =>
    have hw : blockWf b = true ∧ blocksWf rest = true := by
      rw [show blocksWf (b :: rest) = (blockWf b && blocksWf rest) from rfl] at hwf
      simpa using hwf
    obtain ⟨d0, t, hhead, hd0⟩ := blockText_head b 0 hw.1
    have hbt1 : 1 ≤ (blockText 0 b).length := by
      rw [hhead]; simp
    cases rest with
    | nil =>
      have hp : block (S := List Char) id capUnit fuel (topText [b]) =
          .ok ([], b) := by
        have := blockText_parse b 0 [] fuel hw.1 (hfuel b (by simp))
        simpa [topText] using this
      have hne2 : ¬ ([] : List Char).length = (topText [b]).length := by
        rw [show topText [b] = blockText 0 b from rfl]
        simp only [List.length_nil]
        omega
      simp only [many1Go, hp]
      rw [if_neg hne2]
      have hg : 0 < g := by
        rw [show topText [b] = blockText 0 b from rfl] at hlen
        omega
      have hrec := many1Go_topText [] (acc ++ [b]) fuel g rfl
        (by intro b2 hb2; cases hb2) (by simpa [topText] using hg)
      rw [show topText [] = [] from rfl] at hrec
      rw [hrec]
      simp
    | cons r rs =>
      have htt : topText (b :: r :: rs) = blockText 0 b ++ '\n' :: topText (r :: rs) :=
        rfl
      have hwr : blockWf r = true := by
        have h2 := hw.2
        rw [show blocksWf (r :: rs) = (blockWf r && blocksWf rs) from rfl] at h2
        simp only [Bool.and_eq_true] at h2
        exact h2.1
      have hp : block (S := List Char) id capUnit fuel (topText (b :: r :: rs)) =
          .ok (topText (r :: rs), b) := by
        have h1 := blockText_parse b 0 ('\n' :: topText (r :: rs)) fuel hw.1
          (hfuel b (by simp))
        rw [htt]
        rw [h1]
        have h2 : (('\n' : Char) :: topText (r :: rs)).dropWhile isWs =
            topText (r :: rs) := by
          rw [List.dropWhile_cons]
          simp only [show isWs '\n' = true from by decide, if_true]
          exact dropWhile_topText r rs hwr
        rw [h2]
      have hne2 : ¬ (topText (r :: rs)).length = (topText (b :: r :: rs)).length := by
        rw [htt]
        simp only [List.length_append, List.length_cons]
        omega
      simp only [many1Go, hp]
      rw [if_neg hne2]
      have hlen2 : (topText (r :: rs)).length < g := by
        rw [htt] at hlen
        simp only [List.length_append, List.length_cons] at hlen
        omega
      have hrec := many1Go_topText (r :: rs) (acc ++ [b]) fuel g hw.2
        (by intro b2 hb2; exact hfuel b2 (by simp [hb2])) hlen2
      rw [hrec]
      simp

/-- `many1(block)` on a well-formed top-level text returns exactly its
blocks and consumes everything. -/
theorem many1P_topText (b : Block (List Char)) (rest : List (Block (List Char)))
    (fuel : Nat) (hwf : blocksWf (b :: rest) = true)
    (hfuel : ∀ x ∈ b :: rest, needB x ≤ fuel) :
    many1P capUnit (block id capUnit fuel) (topText (b :: rest)) =
      .ok ([], b :: rest) := by
  have hw : blockWf b = true ∧ blocksWf rest = true := by
    rw [show blocksWf (b :: rest) = (blockWf b && blocksWf rest) from rfl] at hwf
    simpa using hwf
  cases rest with
  | nil =>
    have hp : block (S := List Char) id capUnit fuel (topText [b]) =
        .ok ([], b) := by
      have := blockText_parse b 0 [] fuel hw.1 (hfuel b (by simp))
      simpa [topText] using this
    simp only [many1P, hp]
    have hrec := many1Go_topText [] [b] fuel 1 rfl
      (by intro b2 hb2; cases hb2) (by simp [topText])
    rw [show topText [] = [] from rfl] at hrec
    simpa using hrec
  | cons r rs =>
    have hwr : blockWf r = true := by
      have h2 := hw.2
      rw [show blocksWf (r :: rs) = (blockWf r && blocksWf rs) from rfl] at h2
      simp only [Bool.and_eq_true] at h2
      exact h2.1
    have hp : block (S := List Char) id capUnit fuel (topText (b :: r :: rs)) =
        .ok (topText (r :: rs), b) := by
      have h1 := blockText_parse b 0 ('\n' :: topText (r :: rs)) fuel hw.1
        (hfuel b (by simp))
      rw [show topText (b :: r :: rs) = blockText 0 b ++ '\n' :: topText (r :: rs)
        from rfl]
      rw [h1]
      have h2 : (('\n' : Char) :: topText (r :: rs)).dropWhile isWs =
          topText (r :: rs) := by
        rw [List.dropWhile_cons]
        simp only [show isWs '\n' = true from by decide, if_true]
        exact dropWhile_topText r rs hwr
      rw [h2]
    simp only [many1P, hp]
    have hrec := many1Go_topText (r :: rs) [b] fuel ((topText (r :: rs)).length + 1)
      hw.2 (by intro b2 hb2; exact hfuel b2 (by simp [hb2])) (by omega)
    rw [hrec]
    simp

/-- The entry point reconstructs a well-formed nonempty top-level sequence
from its rendered text. -/
theorem parse_topText (bs : List (Block (List Char))) (hne : bs ≠ [])
    (hwf : blocksWf bs = true) :
    parseC (topText bs) = .ok (Vmf.new id bs) := by
  cases bs with
  | nil => exact absurd rfl hne
  | cons b rest =>
    have hfuel : ∀ x ∈ b :: rest, needB x ≤ (topText (b :: rest)).length + 2 := by
      intro x hx
      have := needTop_le (b :: rest) x hx
      omega
    have hm := many1P_topText b rest ((topText (b :: rest)).length + 2) hwf hfuel
    simp only [parseC, parse, vmf, mapP, hm]

/-- Every successfully parsed document has at least one top-level block. -/
theorem parse_blocks_ne_nil (s : List Char) (v : Vmf (List Char))
    (h : parseC s = .ok v) : v.inner.blocks ≠ [] := by
  simp only [parseC, parse, vmf, mapP, many1P] at h
  cases hb : block id capUnit (s.length + 2) s with
  | error e =>
    rw [hb] at h
    exact Except.noConfusion h
  | ok w =>
    obtain ⟨s1, b⟩ := w
    rw [hb] at h
    dsimp only at h
    cases hgo : many1Go capUnit (block id capUnit (s.length + 2)) (s1.length + 1) s1 [b] with
    | error e =>
      rw [hgo] at h
      exact Except.noConfusion h
    | ok u =>
      obtain ⟨i2, l⟩ := u
      rw [hgo] at h
      have h2 : (Except.ok (Vmf.new (id : List Char → List Char) l) :
          Except Unit (Vmf (List Char))) = .ok v := h
      simp only [Except.ok.injEq] at h2
      have hlen : 1 ≤ l.length := many1Go_len capUnit (s1.length + 1) s1 [b] i2 l hgo
      rw [← h2]
      intro hl
      have hl2 : l = [] := hl
      rw [hl2] at hlen
      simp at hlen

/-- C5 (amended): for every successfully parsed document whose property
keys and values contain no newline character, rendering it, re-parsing the
rendering and rendering again reproduces the first rendering byte for
byte. -/
theorem C5_amended (s : String) (D : Vmf (List Char))
    (h1 : parseStr s = some D) (h2 : noNlVmf D = true) :
    (parseStr (renderVmfStr D)).map renderVmfStr = some (renderVmfStr D) := by
  have hD : parseC s.data = .ok D := by
    simp only [parseStr] at h1
    cases hp : parseC s.data with
    | error e =>
      rw [hp] at h1
      exact Option.noConfusion h1
    | ok v =>
      rw [hp] at h1
      have hv : (some v : Option (Vmf (List Char))) = some D := h1
      simp only [Option.some.injEq] at hv
      rw [hv]
  obtain ⟨hroot, hprops, hwf⟩ := parse_wf s.data D hD
  have hne := parse_blocks_ne_nil s.data D hD
  have hnl : noNlList D.inner.blocks = true := by
    simp only [noNlVmf, Bool.and_eq_true] at h2
    exact h2.2
  have hrender : renderVmf id D = topText D.inner.blocks := by
    simp only [renderVmf]
    exact renderTop_eq_topText D.inner.blocks hwf hnl
  have hDnew : Vmf.new (id : List Char → List Char) D.inner.blocks = D := by
    obtain ⟨⟨n, p, bl⟩⟩ := D
    have hn : n = "root".data := hroot
    have hp2 : p = [] := hprops
    subst hn
    subst hp2
    rfl
  have hparse : parseC (renderVmfStr D).data = .ok D := by
    have hdata : (renderVmfStr D).data = topText D.inner.blocks := by
      simp only [renderVmfStr]
      exact hrender
    rw [hdata]
    rw [parse_topText D.inner.blocks hne hwf]
    rw [hDnew]
  simp only [parseStr, hparse]
  rfl

/-- Witness for the amended C5 on the concrete input `a\x7b\x7d`. -/
theorem C5_amended_witness :
    parseStr "a\x7b\x7d" = some (Vmf.new (id : List Char → List Char)
        [Block.mk "a".data [] []]) ∧
      noNlVmf (Vmf.new (id : List Char → List Char) [Block.mk "a".data [] []]) = true ∧
      (parseStr (renderVmfStr (Vmf.new (id : List Char → List Char)
          [Block.mk "a".data [] []]))).map renderVmfStr =
        some (renderVmfStr (Vmf.new (id : List Char → List Char)
          [Block.mk "a".data [] []])) :=
  ⟨rfl, rfl, C5_amended "a\x7b\x7d" _ rfl rfl⟩

/-- The name-and-open-brace step when the brace follows the name with no
whitespace. -/
theorem name_parse_tight (name : List Char) (X : List Char)
    (h : identOk name = true) :
    terminatedP (ignore_whitespace (identifier capUnit)) (open_brace capUnit)
        (name ++ lbraceC :: X) = .ok (X.dropWhile isWs, name) := by
  simp only [identOk, Bool.and_eq_true, List.all_eq_true] at h
  obtain ⟨hne, hall⟩ := h
  cases name with
  | nil => simp at hne
  | cons c0 name2 =>
  have hc0 : isIdentChar c0 = true := hall c0 (by simp)
  have hws0 : isWs c0 = false := identChar_not_ws c0 hc0
  have hlb : isIdentChar lbraceC = false := by decide
  have hlbw : isWs lbraceC = false := by decide
  have htake : ((c0 :: name2) ++ lbraceC :: X).takeWhile isIdentChar =
      c0 :: name2 := by
    rw [takeWhile_append_sat _ hall]
    simp [List.takeWhile_cons, hlb]
  have hdrop : ((c0 :: name2) ++ lbraceC :: X).dropWhile isIdentChar =
      lbraceC :: X := by
    rw [dropWhile_append_sat _ hall]
    simp [List.dropWhile_cons, hlb]
  have hid := (identifier_spec ((c0 :: name2) ++ lbraceC :: X)).2
    (by rw [htake]; simp)
  rw [htake, hdrop] at hid
  have hdw1 : ((c0 :: name2) ++ lbraceC :: X).dropWhile isWs =
      (c0 :: name2) ++ lbraceC :: X := by
    simp [List.dropWhile_cons, hws0]
  have hdw2 : (lbraceC :: X).dropWhile isWs = lbraceC :: X := by
    simp [List.dropWhile_cons, hlbw]
  simp only [terminatedP, ignore_whitespace, multispace0, hdw1, hid]
  rw [hdw2]
  rw [open_brace_on X]

/-- The body loop at end of input: every alternative fails and the loop
reports the missing closing brace. -/
theorem blockBody_nil (nm : List Char) (accp : List (Property (List Char) (List Char)))
    (accb : List (Block (List Char))) :
    ∀ fuel, blockBody (S := List Char) id capUnit fuel [] nm accp accb =
      .error () := by
  intro fuel
  cases fuel with
  | zero => rfl
  | succ m =>
    simp only [blockBody,
      show property (S := List Char) id capUnit [] = .error () from rfl,
      block_err_nil m,
      show ignorable capUnit ([] : List Char) = .error () from rfl,
      show ignore_whitespace (charP capUnit rbraceC) ([] : List Char) = .error ()
        from rfl]
    rfl

/-- C1 (amended): an input whose final closing brace is missing at end of
input is REJECTED: the body loop does stop at end of input, but the parser
then reports a missing-brace error rather than treating the block as
closed, for both the `block` parser (at any fuel) and the `parse` entry
point. -/
theorem C1_amended (key val : List Char) (hk : ∀ c ∈ key, ¬ c = '"')
    (hv : ∀ c ∈ val, ¬ c = '"') :
    (∀ fuel, block (S := List Char) id capUnit fuel
        ("block".data ++ lbraceC :: '"' :: (key ++ '"' :: ' ' :: '"' ::
          (val ++ ['"']))) = .error ()) ∧
    parseC ("block".data ++ lbraceC :: '"' :: (key ++ '"' :: ' ' :: '"' ::
        (val ++ ['"']))) = .error () := by
  have hblk : ∀ fuel, block (S := List Char) id capUnit fuel
      ("block".data ++ lbraceC :: '"' :: (key ++ '"' :: ' ' :: '"' ::
        (val ++ ['"']))) = .error () := by
    intro fuel
    cases fuel with
    | zero => rfl
    | succ m =>
      have hcons : "block".data ++ lbraceC :: '"' :: (key ++ '"' :: ' ' :: '"' ::
          (val ++ ['"'])) = 'b' :: ("lock".data ++ lbraceC :: '"' ::
          (key ++ '"' :: ' ' :: '"' :: (val ++ ['"']))) := rfl
      have hm0 : many0CountP capUnit (ignorable capUnit)
          ("block".data ++ lbraceC :: '"' :: (key ++ '"' :: ' ' :: '"' ::
            (val ++ ['"']))) =
          .ok ("block".data ++ lbraceC :: '"' :: (key ++ '"' :: ' ' :: '"' ::
            (val ++ ['"'])), 0) := by
        rw [hcons]
        exact many0_ignorable_none 'b' _ (by decide) (by decide)
      have hname := name_parse_tight "block".data
        ('"' :: (key ++ '"' :: ' ' :: '"' :: (val ++ ['"']))) (by decide)
      have hqw : isWs '"' = false := by decide
      have hYdw : (('"' : Char) :: (key ++ '"' :: ' ' :: '"' ::
          (val ++ ['"']))).dropWhile isWs =
          '"' :: (key ++ '"' :: ' ' :: '"' :: (val ++ ['"'])) := by
        simp [List.dropWhile_cons, hqw]
      rw [hYdw] at hname
      simp only [block, hm0, hname]
      cases m with
      | zero => rfl
      | succ m2 =>
        have hpp := property_on key val [] hk hv
        have heq : ('"' : Char) :: (key ++ '"' :: ' ' :: '"' :: (val ++ ['"'])) =
            '"' :: (key ++ '"' :: ' ' :: '"' :: (val ++ '"' :: [])) := by
          simp
        rw [heq]
        simp only [blockBody, hpp]
        have hb := blockBody_nil "block".data [⟨key, val⟩] [] m2
        simpa using hb
  refine ⟨hblk, ?_⟩
  have hp := hblk (("block".data ++ lbraceC :: '"' :: (key ++ '"' :: ' ' :: '"' ::
    (val ++ ['"']))).length + 2)
  simp only [parseC, parse, vmf, mapP, many1P, hp]

/-- Witness for the amended C1 at key `k`, value `v`. -/
theorem C1_amended_witness :
    (block (S := List Char) id capUnit 5
        ("block".data ++ lbraceC :: '"' :: (['k'] ++ '"' :: ' ' :: '"' ::
          (['v'] ++ ['"']))) = .error ()) ∧
    parseC ("block".data ++ lbraceC :: '"' :: (['k'] ++ '"' :: ' ' :: '"' ::
        (['v'] ++ ['"']))) = .error () :=
  ⟨(C1_amended ['k'] ['v'] (by decide) (by decide)).1 5,
   (C1_amended ['k'] ['v'] (by decide) (by decide)).2⟩

/-- The class counter consulted by `write_new_id` for a recognized class
name. -/
def counterOf (name : List Char) (st : IdState) : Int :=
  if name = "world".data then st.max_world_id
  else if name = "solid".data then st.max_solid_id
  else if name = "side".data then st.max_side_id
  else st.max_entity_id

/-- Property lines, each terminated by a newline. -/
def propLineList (ps : List (Property (List Char) (List Char))) : List Char :=
  ps.flatMap (fun p => renderProp id p ++ ['\n'])

/-- The non-id property part of `fmt_new_ids` equals the lines of the
id-filtered original property list, in order. -/
theorem flatMap_isId_filter : ∀ props : List (Property (List Char) (List Char)),
    props.flatMap (fun p => if p.is_id (S := List Char) id then []
        else renderProp id p ++ ['\n']) =
      propLineList (props.filter (fun p => !(p.key = "id".data)))
  | [] => rfl
  | p :: ps => by
    have ih := flatMap_isId_filter ps
    simp only [propLineList] at ih ⊢
    rw [List.flatMap_cons, List.filter_cons]
    by_cases hp : p.key = "id".data
    · have h1 : p.is_id (S := List Char) id = true := by
        simp [Property.is_id, hp]
      have h2 : (!(decide (p.key = "id".data))) = false := by simp [hp]
      rw [if_pos h1, h2]
      rw [if_neg (by simp)]
      simpa using ih
    · have h2 : (!(decide (p.key = "id".data))) = true := by simp [hp]
      rw [if_neg (by simp [Property.is_id, hp]), h2]
      rw [if_pos rfl, List.flatMap_cons, ih]

/-- C3: for a block named `world`, `solid`, `side` or `entity`, the
ID-renumbering serializer bumps exactly that class's counter, emits a
synthetic id line carrying the new counter value as the block's first
rendered property line, suppresses every original property whose key is
`id`, and exactly one id-keyed property (the injected one) appears in the
block's emitted property lines. -/
theorem C3_recognized_id_injection (name : List Char)
    (props : List (Property (List Char) (List Char)))
    (blocks : List (Block (List Char))) (st : IdState)
    (h : name = "world".data ∨ name = "solid".data ∨ name = "side".data ∨
      name = "entity".data) :
    (write_new_id (S := List Char) id (.mk name props blocks) st).1 =
        idLine (counterOf name st + 1) ∧
      counterOf name (write_new_id (S := List Char) id (.mk name props blocks) st).2 =
        counterOf name st + 1 ∧
      (fmt_new_ids (S := List Char) id (.mk name props blocks) st).1 =
        name ++ '\n' :: padB (lbraceC :: '\n' ::
          (propLineList (⟨"id".data, (toString (counterOf name st + 1)).data⟩ ::
              props.filter (fun p => !(p.key = "id".data))) ++
            (fmtNewIdsChildren id blocks
              (write_new_id (S := List Char) id (.mk name props blocks) st).2).1))
          ++ [rbraceC] ∧
      ((⟨"id".data, (toString (counterOf name st + 1)).data⟩ ::
          props.filter (fun p => !(p.key = "id".data))).countP
        (fun p => p.key = "id".data)) = 1 := by
  have hmain : (write_new_id (S := List Char) id (.mk name props blocks) st).1 =
        idLine (counterOf name st + 1) ∧
      counterOf name (write_new_id (S := List Char) id (.mk name props blocks) st).2 =
        counterOf name st + 1 := by
    rcases h with h | h | h | h
    · subst h
      have hw : write_new_id (S := List Char) id (.mk "world".data props blocks) st =
          (idLine (st.max_world_id + 1),
            { st with max_world_id := st.max_world_id + 1 }) := rfl
      rw [hw]
      exact ⟨rfl, rfl⟩
    · subst h
      have hw : write_new_id (S := List Char) id (.mk "solid".data props blocks) st =
          (idLine (st.max_solid_id + 1),
            { st with max_solid_id := st.max_solid_id + 1 }) := rfl
      rw [hw]
      exact ⟨rfl, rfl⟩
    · subst h
      have hw : write_new_id (S := List Char) id (.mk "side".data props blocks) st =
          (idLine (st.max_side_id + 1),
            { st with max_side_id := st.max_side_id + 1 }) := rfl
      rw [hw]
      exact ⟨rfl, rfl⟩
    · subst h
      have hw : write_new_id (S := List Char) id (.mk "entity".data props blocks) st =
          (idLine (st.max_entity_id + 1),
            { st with max_entity_id := st.max_entity_id + 1 }) := rfl
      rw [hw]
      exact ⟨rfl, rfl⟩
  refine ⟨hmain.1, hmain.2, ?_, ?_⟩
  · have hfmt : (fmt_new_ids (S := List Char) id (.mk name props blocks) st).1 =
        name ++ '\n' :: padB (lbraceC :: '\n' ::
          ((write_new_id (S := List Char) id (.mk name props blocks) st).1 ++
            props.flatMap (fun p => if p.is_id (S := List Char) id then []
              else renderProp id p ++ ['\n']) ++
            (fmtNewIdsChildren id blocks
              (write_new_id (S := List Char) id (.mk name props blocks) st).2).1))
          ++ [rbraceC] := rfl
    rw [hfmt, hmain.1, flatMap_isId_filter props]
    simp [propLineList, idLine, List.append_assoc]
  · simp only [List.countP_cons]
    have hz : (props.filter (fun p => !(p.key = "id".data))).countP
        (fun p => (p.key = "id".data : Bool)) = 0 := by
      rw [List.countP_eq_zero]
      intro q hq
      have h2 := (List.mem_filter.mp hq).2
      simpa using h2
    rw [hz]
    simp

/-- Witness for C3: a `world` block holding an original id property `7`
and one other property, rendered from the default counter state. -/
theorem C3_witness :
    (("world".data : List Char) = "world".data ∨ ("world".data : List Char) = "solid".data ∨
      ("world".data : List Char) = "side".data ∨ ("world".data : List Char) = "entity".data) ∧
    ((write_new_id (S := List Char) id (.mk "world".data
          [⟨"id".data, "7".data⟩, ⟨"k".data, "v".data⟩] []) IdState.dflt).1 =
        idLine (counterOf "world".data IdState.dflt + 1) ∧
      counterOf "world".data (write_new_id (S := List Char) id (.mk "world".data
          [⟨"id".data, "7".data⟩, ⟨"k".data, "v".data⟩] []) IdState.dflt).2 =
        counterOf "world".data IdState.dflt + 1 ∧
      (fmt_new_ids (S := List Char) id (.mk "world".data
          [⟨"id".data, "7".data⟩, ⟨"k".data, "v".data⟩] []) IdState.dflt).1 =
        "world".data ++ '\n' :: padB (lbraceC :: '\n' ::
          (propLineList (⟨"id".data,
              (toString (counterOf "world".data IdState.dflt + 1)).data⟩ ::
              ([⟨"id".data, "7".data⟩, ⟨"k".data, "v".data⟩] :
                List (Property (List Char) (List Char))).filter
                (fun p => !(p.key = "id".data))) ++
            (fmtNewIdsChildren id []
              (write_new_id (S := List Char) id (.mk "world".data
                [⟨"id".data, "7".data⟩, ⟨"k".data, "v".data⟩] []) IdState.dflt).2).1))
          ++ [rbraceC] ∧
      ((⟨"id".data, (toString (counterOf "world".data IdState.dflt + 1)).data⟩ ::
          ([⟨"id".data, "7".data⟩, ⟨"k".data, "v".data⟩] :
            List (Property (List Char) (List Char))).filter
            (fun p => !(p.key = "id".data))).countP
        (fun p => p.key = "id".data)) = 1) :=
  ⟨Or.inl rfl, C3_recognized_id_injection "world".data
    [⟨"id".data, "7".data⟩, ⟨"k".data, "v".data⟩] [] IdState.dflt (Or.inl rfl)⟩
